import Mathlib

/-!
# Verification of the StagingTools template-injection and email-compatibility engine

Shallow embedding of `src/html_builder.py` (the Template Injection &
Email-Compatibility Engine) over `List Char` strings, together with proofs
settling the specification claims about it.

Python strings are modelled as `List Char`.  Python's `\s`, `str.strip`,
`str.lower` are modelled over ASCII (the inputs the engine handles are
HTML/CSS text where this is exact for every character class the code tests).
-/

set_option maxRecDepth 100000
set_option maxHeartbeats 2000000

namespace StagingTools

/-- ASCII whitespace, modelling Python's `\s` / `str.strip()` character class. -/
def isPyWs (c : Char) : Bool :=
  c = ' ' || c = '\t' || c = '\n' || c = '\r' || c = '\x0b' || c = '\x0c'

/-- ASCII lower-casing of one character, modelling `str.lower` / `re.IGNORECASE`. -/
def lowerCh (c : Char) : Char :=
  if 'A' ≤ c ∧ c ≤ 'Z' then Char.ofNat (c.toNat + 32) else c

/-- ASCII digit test, modelling the regex class `\d`. -/
def isDigitCh (c : Char) : Bool :=
  '0' ≤ c && c ≤ '9'

/-- Regex word-character class `\w` (used to decide `\b` word boundaries). -/
def isWordCh (c : Char) : Bool :=
  ('a' ≤ c && c ≤ 'z') || ('A' ≤ c && c ≤ 'Z') || isDigitCh c || c = '_'

/-- `Python str.find(ch)` restricted to single characters: index of the first
occurrence, `none` when absent (Python returns `-1`). -/
def findCh (c : Char) : List Char → Option Nat
  | [] => none
  | a :: rest => if a = c then some 0 else (findCh c rest).map (· + 1)

/-- Does `l` start with the character sequence `pat`? -/
def startsWithSeq : List Char → List Char → Bool
  | [], _ => true
  | _ :: _, [] => false
  | p :: ps, c :: cs => p = c && startsWithSeq ps cs

/-- Python substring containment `pat in l`. -/
def containsSeq (pat : List Char) : List Char → Bool
  | [] => startsWithSeq pat []
  | c :: rest => startsWithSeq pat (c :: rest) || containsSeq pat rest

/-- `Python str.lstrip()` over the ASCII whitespace model. -/
def lstripL (l : List Char) : List Char := l.dropWhile isPyWs

/-- `Python str.rstrip()` over the ASCII whitespace model. -/
def rstripL (l : List Char) : List Char := (l.reverse.dropWhile isPyWs).reverse

/-- Distance between two naturals. -/
def natDist (a b : Nat) : Nat := (a - b) + (b - a)

/-- `min(xs, key=lambda p: abs(p - mid))`: Python `min` keeps the first of
several elements with the minimal key. -/
def pickNearest (mid : Nat) : List Nat → Option Nat
  | [] => none
  | x :: xs =>
    match pickNearest mid xs with
    | none => some x
    | some y => if natDist y mid < natDist x mid then some y else some x

/-! ## `_split_at_first_heading` (html_builder.py lines 1141–1151)

```python
def _split_at_first_heading(html: str):
    if not html:
        return '', ''
    m = re.search(r'<h[12][\s>]', html, re.IGNORECASE)
    if m:
        return html[:m.start()], html[m.start():]
    return html, ''
```
-/

/-- Does the regex `<h[12][\s>]` (with `re.IGNORECASE`) match at the head of `l`? -/
def headingAt (l : List Char) : Bool :=
  match l with
  | '<' :: h :: d :: w :: _ =>
    (lowerCh h = 'h') && (d = '1' || d = '2') && (isPyWs w || w = '>')
  | _ => false

/-- `re.search(r'<h[12][\s>]', html, re.IGNORECASE)`: position of the leftmost
match, `none` if the pattern never matches. -/
def findHeading : List Char → Option Nat
  | [] => none
  | c :: rest =>
    if headingAt (c :: rest) then some 0 else (findHeading rest).map (· + 1)

/-- `_split_at_first_heading` (both the `not html` early return and the
no-match branch produce `(html, '')`, so they collapse into the `none` case). -/
def splitAtFirstHeading (l : List Char) : List Char × List Char :=
  match findHeading l with
  | some p => (l.take p, l.drop p)
  | none => (l, [])

theorem findHeading_none_iff (l : List Char) :
    findHeading l = none ↔ ∀ q, headingAt (l.drop q) = false := by
  induction l with
  | nil =>
    simp only [findHeading, true_iff]
    intro q; cases q <;> rfl
  | cons c rest ih =>
    by_cases h : headingAt (c :: rest) = true
    · constructor
      · intro hnone
        simp [findHeading, h] at hnone
      · intro hall
        have h0 := hall 0
        simp [h] at h0
    · have h' : headingAt (c :: rest) = false := by
        cases hx : headingAt (c :: rest) with
        | true => exact absurd hx h
        | false => rfl
      constructor
      · intro hnone q
        cases q with
        | zero => simpa using h'
        | succ q' =>
          have : findHeading rest = none := by
            by_cases hr : findHeading rest = none
            · exact hr
            · exfalso
              rcases Option.ne_none_iff_exists'.mp hr with ⟨v, hv⟩
              simp [findHeading, h', hv] at hnone
          simpa using (ih.mp this) q'
      · intro hall
        have : findHeading rest = none := ih.mpr (fun q => by simpa using hall (q + 1))
        simp [findHeading, h', this]

theorem findHeading_some_spec (l : List Char) (p : Nat) (h : findHeading l = some p) :
    headingAt (l.drop p) = true ∧ ∀ q, q < p → headingAt (l.drop q) = false := by
  induction l generalizing p with
  | nil => simp [findHeading] at h
  | cons c rest ih =>
    by_cases hh : headingAt (c :: rest) = true
    · simp [findHeading, hh] at h
      subst h
      exact ⟨by simpa using hh, fun q hq => absurd hq (Nat.not_lt_zero q)⟩
    · have h' : headingAt (c :: rest) = false := by
        cases hx : headingAt (c :: rest) with
        | true => exact absurd hx hh
        | false => rfl
      simp [findHeading, h'] at h
      rcases h with ⟨p', hp', rfl⟩
      rcases ih p' hp' with ⟨h1, h2⟩
      refine ⟨by simpa using h1, ?_⟩
      intro q hq
      cases q with
      | zero => simpa using h'
      | succ q' => simpa using h2 q' (Nat.lt_of_succ_lt_succ hq)

/-- **C3.** For every body fragment, `_split_at_first_heading` produces a pair
whose concatenation is the fragment; when no `<h1>`/`<h2>` opening matches
anywhere the whole fragment is the intro and the main part is empty; when a
match exists the cut happens exactly at the leftmost match of `<h[12][\s>]`;
and the spec's Scenario A instance splits as stated. -/
theorem claim_C3_heading_split :
    (∀ l : List Char,
      (splitAtFirstHeading l).1 ++ (splitAtFirstHeading l).2 = l) ∧
    (∀ l : List Char, (∀ q, headingAt (l.drop q) = false) →
      splitAtFirstHeading l = (l, [])) ∧
    (∀ (l : List Char) (p : Nat), findHeading l = some p →
      splitAtFirstHeading l = (l.take p, l.drop p) ∧
      headingAt (l.drop p) = true ∧
      ∀ q, q < p → headingAt (l.drop q) = false) ∧
    (splitAtFirstHeading "<p>Intro.</p><h2>Section</h2><p>Body.</p>".data =
      ("<p>Intro.</p>".data, "<h2>Section</h2><p>Body.</p>".data)) := by
  refine ⟨?_, ?_, ?_, by decide⟩
  · intro l
    unfold splitAtFirstHeading
    cases h : findHeading l with
    | none => simp
    | some p => simp
  · intro l hall
    unfold splitAtFirstHeading
    rw [(findHeading_none_iff l).mpr hall]
  · intro l p h
    rcases findHeading_some_spec l p h with ⟨h1, h2⟩
    exact ⟨by simp [splitAtFirstHeading, h], h1, h2⟩

/-- Witness for C3: the leftmost-match clause applied at Scenario A's input,
where the heading starts at offset 13. -/
theorem claim_C3_heading_split_witness :
    splitAtFirstHeading "<p>Intro.</p><h2>Section</h2><p>Body.</p>".data =
      ("<p>Intro.</p><h2>Section</h2><p>Body.</p>".data.take 13,
       "<p>Intro.</p><h2>Section</h2><p>Body.</p>".data.drop 13) ∧
    headingAt ("<p>Intro.</p><h2>Section</h2><p>Body.</p>".data.drop 13) = true ∧
    ∀ q, q < 13 →
      headingAt ("<p>Intro.</p><h2>Section</h2><p>Body.</p>".data.drop q) = false :=
  claim_C3_heading_split.2.2.1 "<p>Intro.</p><h2>Section</h2><p>Body.</p>".data 13
    (by decide)

/-! ## `_update_copyright` (html_builder.py lines 315–323)

```python
def _update_copyright(soup):
    year = datetime.now().year
    for p in soup.find_all('p'):
        text = p.get_text()
        if 'Copyright' in text and 'ParentData' in text:
            p.clear()
            p.append(NavigableString(f'Copyright © {year} ParentData, All rights reserved.'))
            break
```

The document is modelled by the list of its paragraph texts in document order;
the system-clock read `datetime.now().year` is modelled as an explicit input. -/

/-- The replacement paragraph `f'Copyright © {year} ParentData, All rights reserved.'`. -/
def copyrightText (year : Nat) : List Char :=
  "Copyright © ".data ++ ((Nat.repr year).data ++ " ParentData, All rights reserved.".data)

/-- `'Copyright' in text and 'ParentData' in text`. -/
def hasCopyrightMark (p : List Char) : Bool :=
  containsSeq "Copyright".data p && containsSeq "ParentData".data p

/-- `_update_copyright`: rewrite the first matching paragraph, then `break`. -/
def updateCopyright (year : Nat) : List (List Char) → List (List Char)
  | [] => []
  | p :: ps =>
    if hasCopyrightMark p then copyrightText year :: ps
    else p :: updateCopyright year ps

/-- **C10.** The copyright pass output embeds the system-clock year: on any
document with a paragraph containing both `Copyright` and `ParentData`, runs
whose clock years render differently produce different outputs, so
`build_email_html` is not a deterministic function of its template and field
bag alone. -/
theorem claim_C10_clock_nondeterminism :
    ∀ (ps : List (List Char)) (y y' : Nat),
      (∃ p ∈ ps, hasCopyrightMark p = true) →
      (Nat.repr y).data ≠ (Nat.repr y').data →
      updateCopyright y ps ≠ updateCopyright y' ps := by
  intro ps y y' hex hne
  induction ps with
  | nil => simp at hex
  | cons p rest ih =>
    by_cases hm : hasCopyrightMark p = true
    · intro heq
      simp only [updateCopyright, if_pos hm, List.cons.injEq, and_true] at heq
      apply hne
      unfold copyrightText at heq
      have h1 := List.append_cancel_left heq
      exact List.append_cancel_right h1
    · intro heq
      simp only [updateCopyright, if_neg hm, List.cons.injEq] at heq
      rcases hex with ⟨q, hq, hmark⟩
      rcases List.mem_cons.mp hq with rfl | hq'
      · exact hm hmark
      · exact ih ⟨q, hq', hmark⟩ heq.2

/-- Witness for C10: a concrete footer paragraph, clock years 2025 and 2026. -/
theorem claim_C10_clock_nondeterminism_witness :
    updateCopyright 2025 ["Copyright © 2024 ParentData, All rights reserved.".data] ≠
      updateCopyright 2026 ["Copyright © 2024 ParentData, All rights reserved.".data] :=
  claim_C10_clock_nondeterminism
    ["Copyright © 2024 ParentData, All rights reserved.".data] 2025 2026
    ⟨"Copyright © 2024 ParentData, All rights reserved.".data, by simp, by decide⟩
    (by decide)

/-! ## `build_email_html` field-bag reads (html_builder.py lines 35–201)

Every content field is read with `fields.get(key, default)`; the standard
variant's title and the two article body sections are built from those reads.
The field bag is modelled as an association list (first binding wins, as in a
Python dict, whose keys are unique); `dict.get` is total and never raises, so
the build is an `Except.ok` on every bag. -/

abbrev FieldBag := List (String × String)

/-- `fields.get(k, d)`. -/
def bagGet : FieldBag → String → String → String
  | [], _, d => d
  | (k', v) :: rest, k, d => if k' = k then v else bagGet rest k d

/-- `_escape_attr` (lines 1247–1249): chained
`.replace('&','&amp;').replace('"','&quot;').replace('<','&lt;').replace('>','&gt;')`.
The chained passes are equivalent to one character map because the later
replacements never introduce a character rewritten by an earlier pass that
has already run. -/
def escCh (c : Char) : List Char :=
  if c = '&' then "&amp;".data
  else if c = '"' then "&quot;".data
  else if c = '<' then "&lt;".data
  else if c = '>' then "&gt;".data
  else [c]

def escapeAttr (l : List Char) : List Char := (l.map escCh).flatten

/-- Row A of section 1 (lines 171–175). -/
def rowA (welcome : List Char) : List Char :=
  "<tr><td style=\"padding-bottom: 8px; padding-top: 24px; width: 100%;\">".data ++
    welcome ++ "</td></tr>".data

/-- The featured-image `<div>` of Row B (lines 177–183). -/
def imageDiv (imgUrl imgAltEscaped : List Char) : List Char :=
  "<div style=\"position: relative; display: inline-block; width: 100%; margin-bottom: 24px;\">".data ++
    "<img alt=\"".data ++ imgAltEscaped ++ "\" class=\"fluid\"".data ++
    " src=\"".data ++ imgUrl ++ "\"".data ++
    " style=\"width: 100%; max-width: 552px; height: auto; display: block; border-radius: 16px;\">".data ++
    "</div>".data

/-- Row B of section 1 (lines 184–189). -/
def rowB (introHtml imgDiv : List Char) : List Char :=
  "<tr><td style=\"padding-bottom: 8px; width: 100%;\">".data ++
    introHtml ++ imgDiv ++ "</td></tr>".data

/-- The single row of section 2 (lines 196–200). -/
def rowTwo (mainHtml : List Char) : List Char :=
  "<tr><td rowspan=\"3\" style=\"padding-bottom: 8px; width: 100%;\">".data ++
    mainHtml ++ "</td></tr>".data

/-- `f"{fields.get('title', '')} - ParentData"` (line 95). -/
def titleText (title : List Char) : List Char := title ++ " - ParentData".data

/-- The standard variant's field-dependent content: page title and the three
injected article-section rows, exactly as `_update_title` and
`_replace_article_sections` build them.  A raised Python exception would be
`Except.error`; no code path for a missing field raises, because every read
is a defaulted `fields.get`. -/
def buildStandardContent (bag : FieldBag) :
    Except String (List Char × List Char × List Char × List Char) :=
  let bodyHtml := (bagGet bag "article_body_html" "").data
  let split := splitAtFirstHeading bodyHtml
  let welcome := (bagGet bag "welcome_html" "").data
  let imgUrl := (bagGet bag "featured_image_url" "").data
  let imgAlt := escapeAttr (bagGet bag "featured_image_alt" "").data
  Except.ok (titleText (bagGet bag "title" "").data,
    rowA welcome, rowB split.1 (imageDiv imgUrl imgAlt), rowTwo split.2)

/-- Insert an explicit `""` binding when the key is missing. -/
def fillDefault (bag : FieldBag) (k : String) : FieldBag := bag ++ [(k, "")]

/-- Fill explicit empty bindings for every standard-variant required field. -/
def fillStandardDefaults (bag : FieldBag) : FieldBag :=
  List.foldl fillDefault bag
    ["title", "article_body_html", "welcome_html", "featured_image_url",
     "featured_image_alt"]

theorem bagGet_all_empty (ds : List (String × String)) (k : String)
    (h : ∀ kv ∈ ds, kv.2 = "") : bagGet ds k "" = "" := by
  induction ds with
  | nil => rfl
  | cons kv rest ih =>
    cases kv with
    | mk a v =>
      have hv : v = "" := h (a, v) (by simp)
      simp only [bagGet]
      split
      · exact hv
      · exact ih (fun kv hkv => h kv (by simp [hkv]))

theorem bagGet_append_empties (bag : FieldBag) (ds : List (String × String))
    (k : String) (h : ∀ kv ∈ ds, kv.2 = "") :
    bagGet (bag ++ ds) k "" = bagGet bag k "" := by
  induction bag with
  | nil => simpa using bagGet_all_empty ds k h
  | cons kv rest ih =>
    cases kv with
    | mk a v =>
      simp only [List.cons_append, bagGet]
      split
      · rfl
      · exact ih

theorem bagGet_fillStandardDefaults (bag : FieldBag) (k : String) :
    bagGet (fillStandardDefaults bag) k "" = bagGet bag k "" := by
  unfold fillStandardDefaults
  simp only [List.foldl, fillDefault, List.append_assoc]
  rw [bagGet_append_empties]
  intro kv hkv
  simp at hkv
  rcases hkv with h | h | h | h | h <;> simp [h]

/-- **C8 counterexample.** With the empty field bag — every variant-required
field missing — the build still returns a complete `ok` result (title and all
three rows), not an error: the claim's "surface a single descriptive error and
abort the whole call" is false on the code. -/
theorem claim_C8_missing_field_counterexample :
    buildStandardContent [] =
      Except.ok (titleText "".data, rowA "".data,
        rowB "".data (imageDiv "".data "".data), rowTwo "".data) := rfl

/-- **C8 (amended).** A field bag missing variant-required fields never
aborts the call: the build always returns `Except.ok`, and a bag with missing
fields produces exactly the output of the same bag with those fields
explicitly bound to the empty string (every read is a defaulted
`fields.get`). -/
theorem claim_C8_missing_field_silent_default :
    (∀ bag : FieldBag, ∃ out, buildStandardContent bag = Except.ok out) ∧
    (∀ bag : FieldBag,
      buildStandardContent bag = buildStandardContent (fillStandardDefaults bag)) := by
  constructor
  · intro bag
    exact ⟨_, rfl⟩
  · intro bag
    unfold buildStandardContent
    simp only [bagGet_fillStandardDefaults]

/-! ## `_text_pos_to_html_pos` (html_builder.py lines 1195–1213)

```python
def _text_pos_to_html_pos(html: str, text_target: int) -> int:
    text_count = 0
    i = 0
    while i < len(html) and text_count < text_target:
        if html[i] == '<':
            close = html.find('>', i)
            i = close + 1 if close >= 0 else len(html)
        elif html[i] == '&':
            semi = html.find(';', i)
            i = semi + 1 if semi >= 0 else i + 1
            text_count += 1
        else:
            text_count += 1
            i += 1
    return i
```

The index jumps `i = close + 1` / `i = semi + 1` are realised structurally by a
skip counter (second argument of `t2hAux`): a positive skip consumes one
character without touching the text counter, so consuming `j + 1` characters
blindly equals the Python jump past the `'>'`/`';'` found at relative index `j`. -/

def t2hAux : List Char → Nat → Nat → Nat
  | [], _, _ => 0
  | _ :: rest, skp + 1, t => 1 + t2hAux rest skp t
  | c :: rest, 0, t =>
    match t with
    | 0 => 0
    | t' + 1 =>
      if c = '<' then
        match findCh '>' rest with
        | some j => 1 + t2hAux rest (j + 1) (t' + 1)
        | none => rest.length + 1
      else if c = '&' then
        match findCh ';' rest with
        | some j => 1 + t2hAux rest (j + 1) t'
        | none => 1 + t2hAux rest 0 t'
      else 1 + t2hAux rest 0 t'

/-- `_text_pos_to_html_pos(html, text_target)`. -/
def textPosToHtmlPos (s : List Char) (target : Nat) : Nat := t2hAux s 0 target

theorem findCh_none_iff (c : Char) (l : List Char) :
    findCh c l = none ↔ ∀ x ∈ l, x ≠ c := by
  induction l with
  | nil => simp [findCh]
  | cons a rest ih =>
    by_cases ha : a = c
    · simp [findCh, ha]
    · simp [findCh, ha, ih]

theorem findCh_some_decomp (c : Char) (l : List Char) (j : Nat)
    (h : findCh c l = some j) :
    ∃ u v, l = u ++ c :: v ∧ u.length = j ∧ ∀ x ∈ u, x ≠ c := by
  induction l generalizing j with
  | nil => simp [findCh] at h
  | cons a rest ih =>
    by_cases ha : a = c
    · simp [findCh, ha] at h
      exact ⟨[], rest, by simp [ha, ← h], by simp [← h], by simp⟩
    · simp [findCh, ha] at h
      rcases h with ⟨j', hj', rfl⟩
      rcases ih j' hj' with ⟨u, v, rfl, rfl, hu⟩
      refine ⟨a :: u, v, by simp, by simp, ?_⟩
      intro x hx
      rcases List.mem_cons.mp hx with rfl | hx'
      · exact ha
      · exact hu x hx'

theorem findCh_some_lt (c : Char) (l : List Char) (j : Nat)
    (h : findCh c l = some j) : j < l.length := by
  rcases findCh_some_decomp c l j h with ⟨u, v, rfl, rfl, _⟩
  simp

theorem t2hAux_le (l : List Char) : ∀ skp t, t2hAux l skp t ≤ l.length := by
  induction l with
  | nil => intro skp t; simp [t2hAux]
  | cons c rest ih =>
    intro skp t
    match skp, t with
    | skp + 1, t =>
      have := ih skp t
      simp only [t2hAux, List.length_cons]
      omega
    | 0, 0 => simp [t2hAux]
    | 0, t' + 1 =>
      by_cases hc : c = '<'
      · subst hc
        cases hf : findCh '>' rest with
        | some j =>
          have := ih (j + 1) (t' + 1)
          simp [t2hAux, hf]
          omega
        | none => simp [t2hAux, hf]
      · by_cases ha : c = '&'
        · subst ha
          cases hf : findCh ';' rest with
          | some j =>
            have := ih (j + 1) t'
            simp [t2hAux, hf]
            omega
          | none =>
            have := ih 0 t'
            simp [t2hAux, hf]
            omega
        · have := ih 0 t'
          simp [t2hAux, hc, ha]
          omega

theorem t2hAux_skip (l : List Char) : ∀ k t,
    t2hAux l (k + 1) t = min (k + 1) l.length + t2hAux (l.drop (k + 1)) 0 t := by
  induction l with
  | nil => intro k t; simp [t2hAux]
  | cons c rest ih =>
    intro k t
    cases k with
    | zero => simp [t2hAux]
    | succ k' =>
      have := ih k' t
      simp only [t2hAux, this, List.drop_succ_cons, List.length_cons,
        Nat.succ_min_succ]
      omega

theorem t2h_zero (l : List Char) : textPosToHtmlPos l 0 = 0 := by
  cases l <;> rfl

theorem t2h_lt_some (rest : List Char) (t j : Nat) (h : findCh '>' rest = some j) :
    textPosToHtmlPos ('<' :: rest) (t + 1) =
      (j + 2) + textPosToHtmlPos (rest.drop (j + 1)) (t + 1) := by
  have hj : j < rest.length := findCh_some_lt _ _ _ h
  have hmin : min (j + 1) rest.length = j + 1 := Nat.min_eq_left (by omega)
  simp [textPosToHtmlPos, t2hAux, h, t2hAux_skip, hmin]
  omega

theorem t2h_lt_none (rest : List Char) (t : Nat) (h : findCh '>' rest = none) :
    textPosToHtmlPos ('<' :: rest) (t + 1) = rest.length + 1 := by
  simp [textPosToHtmlPos, t2hAux, h]

theorem t2h_amp_some (rest : List Char) (t j : Nat) (h : findCh ';' rest = some j) :
    textPosToHtmlPos ('&' :: rest) (t + 1) =
      (j + 2) + textPosToHtmlPos (rest.drop (j + 1)) t := by
  have hj : j < rest.length := findCh_some_lt _ _ _ h
  have hmin : min (j + 1) rest.length = j + 1 := Nat.min_eq_left (by omega)
  simp [textPosToHtmlPos, t2hAux, h, t2hAux_skip, hmin]
  omega

theorem t2h_amp_none (rest : List Char) (t : Nat) (h : findCh ';' rest = none) :
    textPosToHtmlPos ('&' :: rest) (t + 1) = 1 + textPosToHtmlPos rest t := by
  simp [textPosToHtmlPos, t2hAux, h]

theorem t2h_plain (c : Char) (rest : List Char) (t : Nat)
    (h1 : c ≠ '<') (h2 : c ≠ '&') :
    textPosToHtmlPos (c :: rest) (t + 1) = 1 + textPosToHtmlPos rest t := by
  simp [textPosToHtmlPos, t2hAux, h1, h2]

/-- **C7 counterexample.** On `"&ab"` with target 1 there is no `;`, and the
mapper advances a single position past the `&` (returning 1); the claim's
"skips … when no `;` exists, to the end of the string" would return the full
length 3. -/
theorem claim_C7_position_mapper_counterexample :
    textPosToHtmlPos "&ab".data 1 = 1 ∧
    textPosToHtmlPos "&ab".data 1 ≠ "&ab".data.length := by
  constructor
  · rfl
  · intro h
    simp [textPosToHtmlPos, t2hAux, findCh] at h

/-- **C7 (amended).** The Position Mapper is total (defined on every string
and target) and returns at worst the full string length; a tag `<…>` is
consumed without advancing the text counter; an entity `&…;` is consumed as
exactly one text character; an `&` with no later `;` advances one position
(counting one text character) — not to the end of the string; any other
character advances both counters by one; and a reached target stops the walk. -/
theorem claim_C7_position_mapper :
    (∀ (l : List Char) (t : Nat), textPosToHtmlPos l t ≤ l.length) ∧
    (∀ l : List Char, textPosToHtmlPos l 0 = 0) ∧
    (∀ (rest : List Char) (t j : Nat), findCh '>' rest = some j →
      textPosToHtmlPos ('<' :: rest) (t + 1) =
        (j + 2) + textPosToHtmlPos (rest.drop (j + 1)) (t + 1)) ∧
    (∀ (rest : List Char) (t j : Nat), findCh ';' rest = some j →
      textPosToHtmlPos ('&' :: rest) (t + 1) =
        (j + 2) + textPosToHtmlPos (rest.drop (j + 1)) t) ∧
    (∀ (rest : List Char) (t : Nat), findCh ';' rest = none →
      textPosToHtmlPos ('&' :: rest) (t + 1) = 1 + textPosToHtmlPos rest t) ∧
    (∀ (c : Char) (rest : List Char) (t : Nat), c ≠ '<' → c ≠ '&' →
      textPosToHtmlPos (c :: rest) (t + 1) = 1 + textPosToHtmlPos rest t) :=
  ⟨fun l t => t2hAux_le l 0 t, t2h_zero, t2h_lt_some, t2h_amp_some,
    t2h_amp_none, t2h_plain⟩

/-- Witness for C7: the tag and entity steps evaluated on `"<b>x&amp;y"`. -/
theorem claim_C7_position_mapper_witness :
    textPosToHtmlPos ('<' :: "b>x&amp;y".data) (0 + 1) =
      (1 + 2) + textPosToHtmlPos ("b>x&amp;y".data.drop 2) (0 + 1) ∧
    textPosToHtmlPos ('&' :: "amp;y".data) (0 + 1) =
      (3 + 2) + textPosToHtmlPos ("amp;y".data.drop 4) 0 :=
  ⟨claim_C7_position_mapper.2.2.1 "b>x&amp;y".data 0 1 (by decide),
   claim_C7_position_mapper.2.2.2.1 "amp;y".data 0 3 (by decide)⟩

/-! ## Cut positions inside tags or entities

Specification-side predicates: position `p` lies strictly inside a tag when
some `<` opens before `p` and no `>` closes it before `p`; strictly inside an
entity when some `&` opens before `p`, no `;` occurs before `p`, and the
entity's `;` lies at or beyond `p`.  Well-formedness of serialized markup
(every `<` eventually closed, every `&` beginning one of the entities
`&amp;` `&lt;` `&gt;` that BeautifulSoup's minimal formatter emits) is what
`el.decode_contents()` guarantees for the blocks `_split_fade_paragraph`
receives. -/

def insideTag (s : List Char) (p : Nat) : Prop :=
  ∃ q, q < p ∧ q < s.length ∧ s.getD q ' ' = '<' ∧
    ∀ r, q ≤ r → r < p → s.getD r ' ' ≠ '>'

def insideEntity (s : List Char) (p : Nat) : Prop :=
  ∃ q, q < p ∧ q < s.length ∧ s.getD q ' ' = '&' ∧
    (∀ r, q ≤ r → r < p → s.getD r ' ' ≠ ';') ∧
    (∃ r, p ≤ r ∧ r < s.length ∧ s.getD r ' ' = ';')

/-- The character sequence right after an `&` begins one of the three entities
that BeautifulSoup's serializer produces. -/
def entityHeadOk (l : List Char) : Bool :=
  startsWithSeq "amp;".data l || startsWithSeq "lt;".data l || startsWithSeq "gt;".data l

/-- Every `<` in the markup has a later `>`. -/
def wfTagsB : List Char → Bool
  | [] => true
  | c :: rest => (if c = '<' then (findCh '>' rest).isSome else true) && wfTagsB rest

/-- Every `&` in the markup starts `&amp;`, `&lt;` or `&gt;`. -/
def wfAmpsB : List Char → Bool
  | [] => true
  | c :: rest => (if c = '&' then entityHeadOk rest else true) && wfAmpsB rest

theorem getDAppendLeft (u w : List Char) (q : Nat) (d : Char) (h : q < u.length) :
    (u ++ w).getD q d = u.getD q d := by
  induction u generalizing q with
  | nil => simp at h
  | cons a u' ih =>
    cases q with
    | zero => simp
    | succ q' =>
      simp only [List.cons_append, List.getD_cons_succ]
      exact ih q' (by simpa using Nat.lt_of_succ_lt_succ h)

theorem getDAppendPlus (u w : List Char) (m : Nat) (d : Char) :
    (u ++ w).getD (u.length + m) d = w.getD m d := by
  induction u with
  | nil => simp
  | cons a u' ih =>
    have harith : (a :: u').length + m = (u'.length + m) + 1 := by
      simp [List.length_cons]; omega
    rw [List.cons_append, harith, List.getD_cons_succ]
    exact ih

theorem getDAtAppend (u w : List Char) (x : Char) (d : Char) :
    (u ++ x :: w).getD u.length d = x := by
  have := getDAppendPlus u (x :: w) 0 d
  simpa using this

theorem getDDrop (l : List Char) : ∀ (n i : Nat) (d : Char),
    (l.drop n).getD i d = l.getD (n + i) d := by
  induction l with
  | nil => intro n i d; simp
  | cons a l' ih =>
    intro n i d
    cases n with
    | zero => simp
    | succ n' =>
      have harith : n' + 1 + i = (n' + i) + 1 := by omega
      rw [List.drop_succ_cons, harith, List.getD_cons_succ]
      exact ih n' i d

theorem dropAppendSucc (u w : List Char) (x : Char) :
    (u ++ x :: w).drop (u.length + 1) = w := by
  induction u with
  | nil => simp
  | cons a u' ih => simp [ih]

theorem wfTagsB_tail (c : Char) (l : List Char) (h : wfTagsB (c :: l) = true) :
    wfTagsB l = true := by
  simp only [wfTagsB, Bool.and_eq_true] at h
  exact h.2

theorem wfAmpsB_tail (c : Char) (l : List Char) (h : wfAmpsB (c :: l) = true) :
    wfAmpsB l = true := by
  simp only [wfAmpsB, Bool.and_eq_true] at h
  exact h.2

theorem wfTagsB_suffix (u : List Char) : ∀ l, wfTagsB (u ++ l) = true → wfTagsB l = true := by
  induction u with
  | nil => intro l h; simpa using h
  | cons a u' ih => intro l h; exact ih l (wfTagsB_tail a (u' ++ l) h)

theorem wfAmpsB_suffix (u : List Char) : ∀ l, wfAmpsB (u ++ l) = true → wfAmpsB l = true := by
  induction u with
  | nil => intro l h; simpa using h
  | cons a u' ih => intro l h; exact ih l (wfAmpsB_tail a (u' ++ l) h)

theorem wfAmpsB_pos (s : List Char) (h : wfAmpsB s = true) :
    ∀ q, q < s.length → s.getD q ' ' = '&' → entityHeadOk (s.drop (q + 1)) = true := by
  induction s with
  | nil => intro q hq; simp at hq
  | cons c rest ih =>
    intro q hq hch
    simp only [wfAmpsB, Bool.and_eq_true] at h
    cases q with
    | zero =>
      simp only [List.getD_cons_zero] at hch
      subst hch
      simpa using h.1
    | succ q' =>
      simp only [List.getD_cons_succ] at hch
      simpa using ih h.2 q' (by simpa using Nat.lt_of_succ_lt_succ hq) hch

theorem startsWithSeq_decomp (pat : List Char) : ∀ l, startsWithSeq pat l = true →
    ∃ suffix, l = pat ++ suffix := by
  induction pat with
  | nil => intro l _; exact ⟨l, rfl⟩
  | cons p ps ih =>
    intro l h
    cases l with
    | nil => simp [startsWithSeq] at h
    | cons c cs =>
      simp only [startsWithSeq, Bool.and_eq_true, decide_eq_true_eq] at h
      rcases ih cs h.2 with ⟨suffix, rfl⟩
      exact ⟨suffix, by simp [h.1]⟩

theorem entityHeadOk_shapes (l : List Char) (h : entityHeadOk l = true) :
    (∃ l2, l = 'a' :: 'm' :: 'p' :: ';' :: l2) ∨
    (∃ l2, l = 'l' :: 't' :: ';' :: l2) ∨
    (∃ l2, l = 'g' :: 't' :: ';' :: l2) := by
  simp only [entityHeadOk, Bool.or_eq_true] at h
  rcases h with (h | h) | h
  · rcases startsWithSeq_decomp _ _ h with ⟨suffix, rfl⟩
    exact Or.inl ⟨suffix, rfl⟩
  · rcases startsWithSeq_decomp _ _ h with ⟨suffix, rfl⟩
    exact Or.inr (Or.inl ⟨suffix, rfl⟩)
  · rcases startsWithSeq_decomp _ _ h with ⟨suffix, rfl⟩
    exact Or.inr (Or.inr ⟨suffix, rfl⟩)

/-- An `&`-entity head holds its `;` within four characters, with no `>` or
`;` among the characters before it. -/
theorem entitySemi (l : List Char) (h : entityHeadOk l = true) :
    ∃ m, 2 ≤ m ∧ m ≤ 4 ∧ l.getD (m - 1) ' ' = ';' ∧
      ∀ i, i < m - 1 → l.getD i ' ' ≠ '>' ∧ l.getD i ' ' ≠ ';' := by
  rcases entityHeadOk_shapes l h with ⟨l2, rfl⟩ | ⟨l2, rfl⟩ | ⟨l2, rfl⟩
  · refine ⟨4, by omega, by omega, by simp, ?_⟩
    intro i hi
    have : i = 0 ∨ i = 1 ∨ i = 2 := by omega
    rcases this with rfl | rfl | rfl <;> simp
  · refine ⟨3, by omega, by omega, by simp, ?_⟩
    intro i hi
    have : i = 0 ∨ i = 1 := by omega
    rcases this with rfl | rfl <;> simp
  · refine ⟨3, by omega, by omega, by simp, ?_⟩
    intro i hi
    have : i = 0 ∨ i = 1 := by omega
    rcases this with rfl | rfl <;> simp

theorem insideTag_split (pre suf : List Char) (p' : Nat)
    (h : insideTag (pre ++ suf) (pre.length + p')) :
    (∃ q, q < pre.length ∧ pre.getD q ' ' = '<' ∧
      ∀ r, q ≤ r → r < pre.length + p' → (pre ++ suf).getD r ' ' ≠ '>') ∨
    insideTag suf p' := by
  obtain ⟨q, hqp, hqlen, hch, hall⟩ := h
  by_cases hq : q < pre.length
  · exact Or.inl ⟨q, hq, by rw [← getDAppendLeft pre suf q ' ' hq]; exact hch, hall⟩
  · right
    refine ⟨q - pre.length, by omega, ?_, ?_, ?_⟩
    · have := hqlen; simp only [List.length_append] at this; omega
    · have harith : pre.length + (q - pre.length) = q := by omega
      rw [← getDAppendPlus pre suf (q - pre.length) ' ', harith]
      exact hch
    · intro r' hr1 hr2
      have harith : pre.length + r' < pre.length + p' := by omega
      have := hall (pre.length + r') (by omega) harith
      rwa [getDAppendPlus pre suf r' ' '] at this

theorem insideEntity_split (pre suf : List Char) (p' : Nat)
    (h : insideEntity (pre ++ suf) (pre.length + p')) :
    (∃ q, q < pre.length ∧ pre.getD q ' ' = '&' ∧
      ∀ r, q ≤ r → r < pre.length + p' → (pre ++ suf).getD r ' ' ≠ ';') ∨
    insideEntity suf p' := by
  obtain ⟨q, hqp, hqlen, hch, hnosemi, r, hr1, hr2, hr3⟩ := h
  by_cases hq : q < pre.length
  · exact Or.inl ⟨q, hq, by rw [← getDAppendLeft pre suf q ' ' hq]; exact hch, hnosemi⟩
  · right
    refine ⟨q - pre.length, by omega, ?_, ?_, ?_, ?_⟩
    · have := hqlen; simp only [List.length_append] at this; omega
    · have harith : pre.length + (q - pre.length) = q := by omega
      rw [← getDAppendPlus pre suf (q - pre.length) ' ', harith]
      exact hch
    · intro r' hr1' hr2'
      have := hnosemi (pre.length + r') (by omega) (by omega)
      rwa [getDAppendPlus pre suf r' ' '] at this
    · refine ⟨r - pre.length, by omega, ?_, ?_⟩
      · have := hr2; simp only [List.length_append] at this; omega
      · have harith : pre.length + (r - pre.length) = r := by omega
        rw [← getDAppendPlus pre suf (r - pre.length) ' ', harith]
        exact hr3

/-- Main safety lemma: on well-formed serialized markup, the position the
mapper returns is never strictly inside a tag and never strictly inside an
entity, for every target. -/
theorem cleanCutAux : ∀ n : Nat, ∀ s : List Char, s.length ≤ n →
    wfTagsB s = true → wfAmpsB s = true → ∀ t : Nat,
    ¬ insideTag s (textPosToHtmlPos s t) ∧ ¬ insideEntity s (textPosToHtmlPos s t) := by
  intro n
  induction n with
  | zero =>
    intro s hlen hT hA t
    have hs : s = [] := List.length_eq_zero.mp (Nat.le_zero.mp hlen)
    subst hs
    constructor
    · rintro ⟨q, hq, hql, _⟩
      simp at hql
    · rintro ⟨q, hq, hql, _⟩
      simp at hql
  | succ n ih =>
    intro s hlen hT hA t
    cases s with
    | nil =>
      constructor
      · rintro ⟨q, hq, hql, _⟩; simp at hql
      · rintro ⟨q, hq, hql, _⟩; simp at hql
    | cons c rest =>
      cases t with
      | zero =>
        rw [t2h_zero]
        constructor
        · rintro ⟨q, hq, _⟩; omega
        · rintro ⟨q, hq, _⟩; omega
      | succ t' =>
        by_cases hc : c = '<'
        · subst hc
          have hTparts : ((findCh '>' rest).isSome = true) ∧ wfTagsB rest = true := by
            simpa [wfTagsB] using hT
          obtain ⟨j, hj⟩ := Option.isSome_iff_exists.mp hTparts.1
          obtain ⟨u, v, hrest, hulen, _hu⟩ := findCh_some_decomp '>' rest j hj
          subst hrest
          subst hulen
          have hp : textPosToHtmlPos ('<' :: (u ++ '>' :: v)) (t' + 1) =
              (u.length + 2) + textPosToHtmlPos v (t' + 1) := by
            rw [t2h_lt_some _ _ _ hj, dropAppendSucc]
          have hs : '<' :: (u ++ '>' :: v) = ('<' :: (u ++ ['>'])) ++ v := by simp
          have hplen : ('<' :: (u ++ ['>'])).length = u.length + 2 := by simp
          have hTv : wfTagsB v = true :=
            wfTagsB_suffix ('<' :: (u ++ ['>'])) v (by rw [← hs]; exact hT)
          have hAv : wfAmpsB v = true :=
            wfAmpsB_suffix ('<' :: (u ++ ['>'])) v (by rw [← hs]; exact hA)
          have hlv : v.length ≤ n := by simp at hlen; omega
          obtain ⟨hnT, hnE⟩ := ih v hlv hTv hAv (t' + 1)
          have hgt_s : ('<' :: (u ++ '>' :: v)).getD (u.length + 1) ' ' = '>' := by
            rw [List.getD_cons_succ]; exact getDAtAppend u v '>' ' '
          rw [hp]
          have hpos : (u.length + 2) + textPosToHtmlPos v (t' + 1) =
              ('<' :: (u ++ ['>'])).length + textPosToHtmlPos v (t' + 1) := by
            rw [hplen]
          constructor
          · intro hIT
            rw [hs, hpos] at hIT
            rcases insideTag_split _ _ _ hIT with ⟨q, hqlt, hch, hall⟩ | hin
            · rw [hplen] at hqlt
              by_cases hq : q = u.length + 1
              · subst hq
                have hx : ('<' :: (u ++ ['>'])).getD (u.length + 1) ' ' = '>' := by
                  rw [List.getD_cons_succ]; exact getDAtAppend u [] '>' ' '
                rw [hx] at hch
                exact absurd hch (by decide)
              · have := hall (u.length + 1) (by omega) (by rw [hplen]; omega)
                rw [← hs] at this
                exact this hgt_s
            · exact hnT hin
          · intro hIE
            rw [hs, hpos] at hIE
            rcases insideEntity_split _ _ _ hIE with ⟨q, hqlt, hch, hnosemi⟩ | hin
            · rw [hplen] at hqlt
              by_cases hq0 : q = 0
              · subst hq0
                simp only [List.getD_cons_zero] at hch
                exact absurd hch (by decide)
              · by_cases hq1 : q = u.length + 1
                · subst hq1
                  have hx : ('<' :: (u ++ ['>'])).getD (u.length + 1) ' ' = '>' := by
                    rw [List.getD_cons_succ]; exact getDAtAppend u [] '>' ' '
                  rw [hx] at hch
                  exact absurd hch (by decide)
                · have hq_range : 1 ≤ q ∧ q ≤ u.length := by omega
                  have hsq : ('<' :: (u ++ '>' :: v)).getD q ' ' = '&' := by
                    rw [hs, getDAppendLeft _ _ q ' ' (by rw [hplen]; omega)]
                    exact hch
                  have hqlen_s : q < ('<' :: (u ++ '>' :: v)).length := by
                    simp; omega
                  have hent := wfAmpsB_pos _ hA q hqlen_s hsq
                  obtain ⟨m, hm2, _hm4, hsemi, hmid⟩ := entitySemi _ hent
                  have hsemi_s : ('<' :: (u ++ '>' :: v)).getD (q + m) ' ' = ';' := by
                    have harith : q + m = q + 1 + (m - 1) := by omega
                    rw [harith, ← getDDrop]
                    exact hsemi
                  rcases Nat.lt_trichotomy (q + m) (u.length + 1) with hlt | heq | hgt2
                  · have := hnosemi (q + m) (by omega) (by rw [hplen]; omega)
                    rw [← hs] at this
                    exact this hsemi_s
                  · rw [heq, hgt_s] at hsemi_s
                    exact absurd hsemi_s (by decide)
                  · have hmm := (hmid (u.length + 1 - q - 1) (by omega)).1
                    rw [getDDrop] at hmm
                    have harith : q + 1 + (u.length + 1 - q - 1) = u.length + 1 := by
                      omega
                    rw [harith] at hmm
                    exact hmm hgt_s
            · exact hnE hin
        · by_cases ha : c = '&'
          · subst ha
            have hAparts : entityHeadOk rest = true ∧ wfAmpsB rest = true := by
              simpa [wfAmpsB] using hA
            rcases entityHeadOk_shapes rest hAparts.1 with ⟨l2, rfl⟩ | ⟨l2, rfl⟩ | ⟨l2, rfl⟩
            · -- &amp;
              have hp : textPosToHtmlPos ('&' :: 'a' :: 'm' :: 'p' :: ';' :: l2) (t' + 1) =
                  5 + textPosToHtmlPos l2 t' := by
                have := t2h_amp_some ('a' :: 'm' :: 'p' :: ';' :: l2) t' 3 rfl
                simpa using this
              have hs : '&' :: 'a' :: 'm' :: 'p' :: ';' :: l2 =
                  (['&', 'a', 'm', 'p', ';'] : List Char) ++ l2 := rfl
              have hTv : wfTagsB l2 = true :=
                wfTagsB_suffix ['&', 'a', 'm', 'p', ';'] l2 hT
              have hAv : wfAmpsB l2 = true :=
                wfAmpsB_suffix ['&', 'a', 'm', 'p', ';'] l2 hA
              have hlv : l2.length ≤ n := by simp at hlen; omega
              obtain ⟨hnT, hnE⟩ := ih l2 hlv hTv hAv t'
              rw [hp]
              have hpos : 5 + textPosToHtmlPos l2 t' =
                  (['&', 'a', 'm', 'p', ';'] : List Char).length + textPosToHtmlPos l2 t' := by
                simp
              constructor
              · intro hIT
                rw [hs, hpos] at hIT
                rcases insideTag_split _ _ _ hIT with ⟨q, hqlt, hch, _⟩ | hin
                · simp only [List.length_cons, List.length_nil] at hqlt
                  rcases (by omega : q = 0 ∨ q = 1 ∨ q = 2 ∨ q = 3 ∨ q = 4) with
                    rfl | rfl | rfl | rfl | rfl <;> exact absurd hch (by decide)
                · exact hnT hin
              · intro hIE
                rw [hs, hpos] at hIE
                rcases insideEntity_split _ _ _ hIE with ⟨q, hqlt, hch, hnosemi⟩ | hin
                · simp only [List.length_cons, List.length_nil] at hqlt
                  rcases (by omega : q = 0 ∨ q = 1 ∨ q = 2 ∨ q = 3 ∨ q = 4) with
                    rfl | rfl | rfl | rfl | rfl
                  · have := hnosemi 4 (by omega) (by simp; omega)
                    apply this
                    rw [getDAppendLeft _ _ 4 ' ' (by simp)]
                    decide
                  · exact absurd hch (by decide)
                  · exact absurd hch (by decide)
                  · exact absurd hch (by decide)
                  · exact absurd hch (by decide)
                · exact hnE hin
            · -- &lt;
              have hp : textPosToHtmlPos ('&' :: 'l' :: 't' :: ';' :: l2) (t' + 1) =
                  4 + textPosToHtmlPos l2 t' := by
                have := t2h_amp_some ('l' :: 't' :: ';' :: l2) t' 2 rfl
                simpa using this
              have hs : '&' :: 'l' :: 't' :: ';' :: l2 =
                  (['&', 'l', 't', ';'] : List Char) ++ l2 := rfl
              have hTv : wfTagsB l2 = true := wfTagsB_suffix ['&', 'l', 't', ';'] l2 hT
              have hAv : wfAmpsB l2 = true := wfAmpsB_suffix ['&', 'l', 't', ';'] l2 hA
              have hlv : l2.length ≤ n := by simp at hlen; omega
              obtain ⟨hnT, hnE⟩ := ih l2 hlv hTv hAv t'
              rw [hp]
              have hpos : 4 + textPosToHtmlPos l2 t' =
                  (['&', 'l', 't', ';'] : List Char).length + textPosToHtmlPos l2 t' := by
                simp
              constructor
              · intro hIT
                rw [hs, hpos] at hIT
                rcases insideTag_split _ _ _ hIT with ⟨q, hqlt, hch, _⟩ | hin
                · simp only [List.length_cons, List.length_nil] at hqlt
                  rcases (by omega : q = 0 ∨ q = 1 ∨ q = 2 ∨ q = 3) with
                    rfl | rfl | rfl | rfl <;> exact absurd hch (by decide)
                · exact hnT hin
              · intro hIE
                rw [hs, hpos] at hIE
                rcases insideEntity_split _ _ _ hIE with ⟨q, hqlt, hch, hnosemi⟩ | hin
                · simp only [List.length_cons, List.length_nil] at hqlt
                  rcases (by omega : q = 0 ∨ q = 1 ∨ q = 2 ∨ q = 3) with
                    rfl | rfl | rfl | rfl
                  · have := hnosemi 3 (by omega) (by simp; omega)
                    apply this
                    rw [getDAppendLeft _ _ 3 ' ' (by simp)]
                    decide
                  · exact absurd hch (by decide)
                  · exact absurd hch (by decide)
                  · exact absurd hch (by decide)
                · exact hnE hin
            · -- &gt;
              have hp : textPosToHtmlPos ('&' :: 'g' :: 't' :: ';' :: l2) (t' + 1) =
                  4 + textPosToHtmlPos l2 t' := by
                have := t2h_amp_some ('g' :: 't' :: ';' :: l2) t' 2 rfl
                simpa using this
              have hs : '&' :: 'g' :: 't' :: ';' :: l2 =
                  (['&', 'g', 't', ';'] : List Char) ++ l2 := rfl
              have hTv : wfTagsB l2 = true := wfTagsB_suffix ['&', 'g', 't', ';'] l2 hT
              have hAv : wfAmpsB l2 = true := wfAmpsB_suffix ['&', 'g', 't', ';'] l2 hA
              have hlv : l2.length ≤ n := by simp at hlen; omega
              obtain ⟨hnT, hnE⟩ := ih l2 hlv hTv hAv t'
              rw [hp]
              have hpos : 4 + textPosToHtmlPos l2 t' =
                  (['&', 'g', 't', ';'] : List Char).length + textPosToHtmlPos l2 t' := by
                simp
              constructor
              · intro hIT
                rw [hs, hpos] at hIT
                rcases insideTag_split _ _ _ hIT with ⟨q, hqlt, hch, _⟩ | hin
                · simp only [List.length_cons, List.length_nil] at hqlt
                  rcases (by omega : q = 0 ∨ q = 1 ∨ q = 2 ∨ q = 3) with
                    rfl | rfl | rfl | rfl <;> exact absurd hch (by decide)
                · exact hnT hin
              · intro hIE
                rw [hs, hpos] at hIE
                rcases insideEntity_split _ _ _ hIE with ⟨q, hqlt, hch, hnosemi⟩ | hin
                · simp only [List.length_cons, List.length_nil] at hqlt
                  rcases (by omega : q = 0 ∨ q = 1 ∨ q = 2 ∨ q = 3) with
                    rfl | rfl | rfl | rfl
                  · have := hnosemi 3 (by omega) (by simp; omega)
                    apply this
                    rw [getDAppendLeft _ _ 3 ' ' (by simp)]
                    decide
                  · exact absurd hch (by decide)
                  · exact absurd hch (by decide)
                  · exact absurd hch (by decide)
                · exact hnE hin
          · -- plain character
            have hp := t2h_plain c rest t' hc ha
            have hTv := wfTagsB_tail c rest hT
            have hAv := wfAmpsB_tail c rest hA
            have hlv : rest.length ≤ n := by simp at hlen; omega
            obtain ⟨hnT, hnE⟩ := ih rest hlv hTv hAv t'
            rw [hp]
            have hs : c :: rest = [c] ++ rest := rfl
            have hpos : 1 + textPosToHtmlPos rest t' =
                ([c] : List Char).length + textPosToHtmlPos rest t' := by simp
            constructor
            · intro hIT
              rw [hs, hpos] at hIT
              rcases insideTag_split _ _ _ hIT with ⟨q, hqlt, hch, _⟩ | hin
              · have hq0 : q = 0 := by simp at hqlt; omega
                subst hq0
                simp only [List.getD_cons_zero] at hch
                exact hc hch
              · exact hnT hin
            · intro hIE
              rw [hs, hpos] at hIE
              rcases insideEntity_split _ _ _ hIE with ⟨q, hqlt, hch, _⟩ | hin
              · have hq0 : q = 0 := by simp at hqlt; omega
                subst hq0
                simp only [List.getD_cons_zero] at hch
                exact ha hch
              · exact hnE hin

/-! ## `_split_fade_paragraph` (html_builder.py lines 1216–1244)

```python
def _split_fade_paragraph(el):
    inner_html = el.decode_contents()
    plain_text = el.get_text()
    if not plain_text.strip():
        return inner_html, ''
    mid = len(plain_text) // 2
    sentence_ends = [m.end() for m in re.finditer(r'[.!?](?:\s|$)', plain_text)]
    if sentence_ends:
        split_pos = min(sentence_ends, key=lambda p: abs(p - mid))
    else:
        word_ends = [m.end() for m in re.finditer(r'\S+\s*', plain_text)]
        if word_ends:
            split_pos = min(word_ends, key=lambda p: abs(p - mid))
        else:
            split_pos = mid
    html_pos = _text_pos_to_html_pos(inner_html, split_pos)
    return inner_html[:html_pos].rstrip(), inner_html[html_pos:].lstrip()
```

The element is represented by its inner markup `el.decode_contents()`;
`el.get_text()` is modelled by `extractText`, which walks the serialized
markup dropping tags and decoding the standard entities that BeautifulSoup's
serializer can emit in it (text uses `&amp;`/`&lt;`/`&gt;`; pre-existing
`&quot;`/`&#39;`/`&nbsp;` references are also decoded; any other `&` is
literal text, as `html.parser` leaves unknown references alone). -/

def extractTextGo : Bool → List Char → List Char
  | _, [] => []
  | true, c :: rest =>
    if c = '>' then extractTextGo false rest else extractTextGo true rest
  | false, '&' :: 'a' :: 'm' :: 'p' :: ';' :: r2 => '&' :: extractTextGo false r2
  | false, '&' :: 'l' :: 't' :: ';' :: r2 => '<' :: extractTextGo false r2
  | false, '&' :: 'g' :: 't' :: ';' :: r2 => '>' :: extractTextGo false r2
  | false, '&' :: 'q' :: 'u' :: 'o' :: 't' :: ';' :: r2 => '"' :: extractTextGo false r2
  | false, '&' :: 'n' :: 'b' :: 's' :: 'p' :: ';' :: r2 => ' ' :: extractTextGo false r2
  | false, '&' :: '#' :: '3' :: '9' :: ';' :: r2 => '\'' :: extractTextGo false r2
  | false, c :: rest =>
    if c = '<' then extractTextGo true rest
    else c :: extractTextGo false rest

/-- `el.get_text()` over the element's serialized inner markup. -/
def extractText (l : List Char) : List Char := extractTextGo false l

/-- `Python str.strip()`. -/
def pyStrip (l : List Char) : List Char := rstripL (lstripL l)

/-- `[m.end() for m in re.finditer(r'[.!?](?:\s|$)', plain_text)]`:
a sentence terminator followed by a whitespace character (consumed by the
match) or the end of the text. -/
def sentenceEndsGo : Nat → List Char → List Nat
  | _, [] => []
  | pos, [c] => if c = '.' || c = '!' || c = '?' then [pos + 1] else []
  | pos, c :: w :: rest2 =>
    if c = '.' || c = '!' || c = '?' then
      if isPyWs w then (pos + 2) :: sentenceEndsGo (pos + 2) rest2
      else sentenceEndsGo (pos + 1) (w :: rest2)
    else sentenceEndsGo (pos + 1) (w :: rest2)

def sentenceEnds (l : List Char) : List Nat := sentenceEndsGo 0 l

/-- `[m.end() for m in re.finditer(r'\S+\s*', plain_text)]`: mode 0 scans for
a match start, mode 1 is inside `\S+`, mode 2 inside the trailing `\s*`. -/
def wordEndsGo : Nat → Nat → List Char → List Nat
  | pos, mode, [] => if mode = 1 || mode = 2 then [pos] else []
  | pos, mode, c :: rest =>
    if mode = 0 then
      if isPyWs c then wordEndsGo (pos + 1) 0 rest else wordEndsGo (pos + 1) 1 rest
    else if mode = 1 then
      if isPyWs c then wordEndsGo (pos + 1) 2 rest else wordEndsGo (pos + 1) 1 rest
    else
      if isPyWs c then wordEndsGo (pos + 1) 2 rest
      else pos :: wordEndsGo (pos + 1) 1 rest

def wordEnds (l : List Char) : List Nat := wordEndsGo 0 0 l

/-- The chosen plain-text split position: sentence boundary nearest the
midpoint, else word boundary nearest the midpoint, else the midpoint. -/
def fadeSplitPos (plain : List Char) : Nat :=
  let mid := plain.length / 2
  match pickNearest mid (sentenceEnds plain) with
  | some p => p
  | none =>
    match pickNearest mid (wordEnds plain) with
    | some p => p
    | none => mid

/-- `_split_fade_paragraph` over the element's inner markup. -/
def splitFadeParagraph (innerHtml : List Char) : List Char × List Char :=
  let plain := extractText innerHtml
  if pyStrip plain = [] then (innerHtml, [])
  else
    let htmlPos := textPosToHtmlPos innerHtml (fadeSplitPos plain)
    (rstripL (innerHtml.take htmlPos), lstripL (innerHtml.drop htmlPos))

/-- **C2.** For every block whose (well-formed, serializer-produced) inner
markup has non-empty plain text, the fade split slices the inner markup at one
position `p`: the two returned fragments are the slices up to and from `p`
(with only the boundary-adjacent whitespace trim applied), their untrimmed
concatenation is exactly the inner markup, and `p` never falls strictly
inside a tag or an entity.  When the plain text is empty the pair is the
whole inner markup and the empty string. -/
theorem claim_C2_fade_split :
    (∀ inner : List Char, wfTagsB inner = true → wfAmpsB inner = true →
      pyStrip (extractText inner) ≠ [] →
      ∃ p, p ≤ inner.length ∧
        splitFadeParagraph inner = (rstripL (inner.take p), lstripL (inner.drop p)) ∧
        inner.take p ++ inner.drop p = inner ∧
        ¬ insideTag inner p ∧ ¬ insideEntity inner p) ∧
    (∀ inner : List Char, pyStrip (extractText inner) = [] →
      splitFadeParagraph inner = (inner, [])) := by
  constructor
  · intro inner hT hA hne
    refine ⟨textPosToHtmlPos inner (fadeSplitPos (extractText inner)),
      t2hAux_le inner 0 _, ?_, List.take_append_drop _ _, ?_, ?_⟩
    · simp only [splitFadeParagraph, if_neg hne]
    · exact (cleanCutAux inner.length inner le_rfl hT hA _).1
    · exact (cleanCutAux inner.length inner le_rfl hT hA _).2
  · intro inner h
    simp only [splitFadeParagraph, if_pos h]

/-- Witness for C2: both clauses evaluated — a two-sentence block with a bold
span, and an image-only block (empty plain text). -/
theorem claim_C2_fade_split_witness :
    (∃ p, p ≤ "Hello there. <b>General</b> Kenobi.".data.length ∧
      splitFadeParagraph "Hello there. <b>General</b> Kenobi.".data =
        (rstripL ("Hello there. <b>General</b> Kenobi.".data.take p),
         lstripL ("Hello there. <b>General</b> Kenobi.".data.drop p)) ∧
      "Hello there. <b>General</b> Kenobi.".data.take p ++
        "Hello there. <b>General</b> Kenobi.".data.drop p =
        "Hello there. <b>General</b> Kenobi.".data ∧
      ¬ insideTag "Hello there. <b>General</b> Kenobi.".data p ∧
      ¬ insideEntity "Hello there. <b>General</b> Kenobi.".data p) ∧
    splitFadeParagraph "<img src=\"x\"/>".data = ("<img src=\"x\"/>".data, []) :=
  ⟨claim_C2_fade_split.1 "Hello there. <b>General</b> Kenobi.".data
      (by decide) (by decide) (by decide),
   claim_C2_fade_split.2 "<img src=\"x\"/>".data (by decide)⟩

/-! ## `_replace_graph_placeholders` (html_builder.py lines 1254–1277)

```python
def _replace_graph_placeholders(html: str, inline_graphs: list) -> str:
    def replace_graph(m):
        n = int(m.group(1))           # 1-based
        idx = n - 1
        if idx >= len(inline_graphs):
            return m.group(0)         # leave placeholder visible if no URL given
        graph = inline_graphs[idx]
        url = _escape_attr(graph.get('url', ''))
        alt = _escape_attr(graph.get('alt', f'Graph {n}'))
        return (...)
    return re.sub(r'\[\[GRAPH_(\d+)\]\]', replace_graph, html)
```

`re.sub` scans the original string left to right for non-overlapping matches
of `[[GRAPH_` + digits + `]]`; replacement text is emitted but never
rescanned.  The scanner is realised as a structural state machine whose
second mode collects the `\d+` digits; a failed match re-emits the consumed
literal and resumes at the failing character (where a fresh `[[GRAPH_` may
begin, exactly as the regex engine retries later start positions — no
skipped литeral character can start a match since only `[` can open one). -/

structure GraphImage where
  url : Option (List Char)
  alt : Option (List Char)

/-- A single decimal digit, as Python's `str(n)` renders it. -/
def digitCh : Nat → Char
  | 0 => '0'
  | 1 => '1'
  | 2 => '2'
  | 3 => '3'
  | 4 => '4'
  | 5 => '5'
  | 6 => '6'
  | 7 => '7'
  | 8 => '8'
  | 9 => '9'
  | _ => '?'

/-- Python `str(n)` for a natural number (fuelled to keep the recursion
structural; `n + 1` units of fuel always suffice since `n / 10 < n`). -/
def natReprFuel : Nat → Nat → List Char
  | 0, _ => []
  | fuel + 1, n =>
    if n < 10 then [digitCh n]
    else natReprFuel fuel (n / 10) ++ [digitCh (n % 10)]

def natReprL (n : Nat) : List Char := natReprFuel (n + 1) n

/-- `int(m.group(1))` on the captured digit run. -/
def digitsToNat (ds : List Char) : Nat :=
  ds.foldl (fun a c => a * 10 + (c.toNat - 48)) 0

/-- `idx = n - 1; if idx >= len(inline_graphs): keep else inline_graphs[idx]`.
For `n = 0` Python computes `idx = -1`: `-1 >= len(...)` is false, and
`inline_graphs[-1]` selects the last element by negative indexing (on an
empty list CPython would raise `IndexError`; that branch is unreachable for
the 1-indexed tokens this engine's data model defines, and `getLast?`
makes it total here). -/
def tokenImage (imgs : List GraphImage) (n : Nat) : Option GraphImage :=
  if n = 0 then imgs.getLast?
  else imgs[n - 1]?

/-- The replacement image block (lines 1268–1275). -/
def graphBlock (n : Nat) (g : GraphImage) : List Char :=
  "<div style=\"position: relative; display: inline-block; width: 100%; margin: 16px 0;\">".data ++
    "<img alt=\"".data ++ escapeAttr (g.alt.getD ("Graph ".data ++ natReprL n)) ++
    "\" class=\"fluid\" src=\"".data ++ escapeAttr (g.url.getD []) ++ "\"".data ++
    " style=\"width: 100%; max-width: 552px; height: auto; display: block; border-radius: 8px;\">".data ++
    "</div>".data

/-- The literal text consumed by a (possibly failed) match attempt. -/
def litPrefix (acc : List Char) : List Char := "[[GRAPH_".data ++ acc

/-- `m.group(0)` for a complete token with digit run `ds`. -/
def tokenText (ds : List Char) : List Char := "[[GRAPH_".data ++ ds ++ "]]".data

/-- The text a complete token turns into: the image block when a descriptor
exists, otherwise the token itself, verbatim. -/
def resolveTok (imgs : List GraphImage) (ds : List Char) : List Char :=
  match tokenImage imgs (digitsToNat ds) with
  | some g => graphBlock (digitsToNat ds) g
  | none => tokenText ds

def subGraphGo (imgs : List GraphImage) : Option (List Char) → List Char → List Char
  | none, [] => []
  | none, '[' :: '[' :: 'G' :: 'R' :: 'A' :: 'P' :: 'H' :: '_' :: r2 =>
    subGraphGo imgs (some []) r2
  | none, c :: rest => c :: subGraphGo imgs none rest
  | some acc, ']' :: ']' :: rest =>
    if acc = [] then litPrefix [] ++ ']' :: ']' :: subGraphGo imgs none rest
    else resolveTok imgs acc ++ subGraphGo imgs none rest
  | some acc, '[' :: '[' :: 'G' :: 'R' :: 'A' :: 'P' :: 'H' :: '_' :: r2 =>
    litPrefix acc ++ subGraphGo imgs (some []) r2
  | some acc, c :: rest =>
    if isDigitCh c then subGraphGo imgs (some (acc ++ [c])) rest
    else litPrefix acc ++ c :: subGraphGo imgs none rest
  | some acc, [] => litPrefix acc

/-- `_replace_graph_placeholders(html, inline_graphs)`. -/
def subGraph (imgs : List GraphImage) (html : List Char) : List Char :=
  subGraphGo imgs none html

/-- The 1-based indices of the `[[GRAPH_<n>]]` tokens of a string, in order
(`re.finditer` over the same pattern, same scanning discipline). -/
def tokensOfGo : Option (List Char) → List Char → List Nat
  | none, [] => []
  | none, '[' :: '[' :: 'G' :: 'R' :: 'A' :: 'P' :: 'H' :: '_' :: r2 =>
    tokensOfGo (some []) r2
  | none, _ :: rest => tokensOfGo none rest
  | some acc, ']' :: ']' :: rest =>
    if acc = [] then tokensOfGo none rest
    else digitsToNat acc :: tokensOfGo none rest
  | some _, '[' :: '[' :: 'G' :: 'R' :: 'A' :: 'P' :: 'H' :: '_' :: r2 =>
    tokensOfGo (some []) r2
  | some acc, c :: rest =>
    if isDigitCh c then tokensOfGo (some (acc ++ [c])) rest
    else tokensOfGo none rest
  | some _, [] => []

def tokensOf (html : List Char) : List Nat := tokensOfGo none html

/-- A fragment "containing the tokens": alternating text parts and token
middles, `t₀ m₁ t₁ m₂ … mₖ tₖ`. -/
def interleaveWith : List (List Char) → List (List Char) → List Char
  | [], _ => []
  | t :: _, [] => t
  | t :: parts', m :: mids' => t ++ m ++ interleaveWith parts' mids'

theorem isDigitCh_ne_lbracket (c : Char) (h : isDigitCh c = true) : c ≠ '[' := by
  rintro rfl; revert h; decide

theorem isDigitCh_ne_rbracket (c : Char) (h : isDigitCh c = true) : c ≠ ']' := by
  rintro rfl; revert h; decide

theorem subGraphGo_none_cons (imgs : List GraphImage) (c : Char) (l : List Char)
    (hc : c ≠ '[') :
    subGraphGo imgs none (c :: l) = c :: subGraphGo imgs none l := by
  rw [subGraphGo.eq_def]
  split <;> simp_all

theorem subGraphGo_enter (imgs : List GraphImage) (r2 : List Char) :
    subGraphGo imgs none ('[' :: '[' :: 'G' :: 'R' :: 'A' :: 'P' :: 'H' :: '_' :: r2) =
      subGraphGo imgs (some []) r2 := by
  rw [subGraphGo.eq_def]
  rfl

theorem subGraphGo_digit (imgs : List GraphImage) (acc : List Char) (c : Char)
    (l : List Char) (hc : isDigitCh c = true) :
    subGraphGo imgs (some acc) (c :: l) = subGraphGo imgs (some (acc ++ [c])) l := by
  have h1 := isDigitCh_ne_lbracket c hc
  have h2 := isDigitCh_ne_rbracket c hc
  rw [subGraphGo.eq_def]
  split <;> simp_all

theorem subGraphGo_close (imgs : List GraphImage) (acc : List Char) (l : List Char)
    (hacc : acc ≠ []) :
    subGraphGo imgs (some acc) (']' :: ']' :: l) =
      resolveTok imgs acc ++ subGraphGo imgs none l := by
  rw [subGraphGo.eq_def]
  simp [hacc]

theorem tokensOfGo_none_cons (c : Char) (l : List Char) (hc : c ≠ '[') :
    tokensOfGo none (c :: l) = tokensOfGo none l := by
  rw [tokensOfGo.eq_def]
  split <;> simp_all

theorem tokensOfGo_enter (r2 : List Char) :
    tokensOfGo none ('[' :: '[' :: 'G' :: 'R' :: 'A' :: 'P' :: 'H' :: '_' :: r2) =
      tokensOfGo (some []) r2 := by
  rw [tokensOfGo.eq_def]
  rfl

theorem tokensOfGo_digit (acc : List Char) (c : Char) (l : List Char)
    (hc : isDigitCh c = true) :
    tokensOfGo (some acc) (c :: l) = tokensOfGo (some (acc ++ [c])) l := by
  have h1 := isDigitCh_ne_lbracket c hc
  have h2 := isDigitCh_ne_rbracket c hc
  rw [tokensOfGo.eq_def]
  split <;> simp_all

theorem tokensOfGo_close (acc : List Char) (l : List Char) (hacc : acc ≠ []) :
    tokensOfGo (some acc) (']' :: ']' :: l) =
      digitsToNat acc :: tokensOfGo none l := by
  rw [tokensOfGo.eq_def]
  simp [hacc]

theorem subGraphGo_digits_absorb (imgs : List GraphImage) (ds : List Char) :
    ∀ (acc r : List Char), (∀ c ∈ ds, isDigitCh c = true) →
    subGraphGo imgs (some acc) (ds ++ r) = subGraphGo imgs (some (acc ++ ds)) r := by
  induction ds with
  | nil => intro acc r _; simp
  | cons c ds' ih =>
    intro acc r hds
    rw [List.cons_append, subGraphGo_digit imgs acc c _ (hds c (by simp)),
      ih (acc ++ [c]) r (fun x hx => hds x (by simp [hx]))]
    simp

theorem tokensOfGo_digits_absorb (ds : List Char) :
    ∀ (acc r : List Char), (∀ c ∈ ds, isDigitCh c = true) →
    tokensOfGo (some acc) (ds ++ r) = tokensOfGo (some (acc ++ ds)) r := by
  induction ds with
  | nil => intro acc r _; simp
  | cons c ds' ih =>
    intro acc r hds
    rw [List.cons_append, tokensOfGo_digit acc c _ (hds c (by simp)),
      ih (acc ++ [c]) r (fun x hx => hds x (by simp [hx]))]
    simp

theorem subGraphGo_prefix (imgs : List GraphImage) (t : List Char) :
    ∀ r, '[' ∉ t →
    subGraphGo imgs none (t ++ r) = t ++ subGraphGo imgs none r := by
  induction t with
  | nil => intro r _; simp
  | cons c t' ih =>
    intro r ht
    rw [List.cons_append, subGraphGo_none_cons imgs c _ (fun hcc => ht (by simp [hcc])),
      ih r (fun hx => ht (by simp [hx]))]
    rfl

theorem tokensOfGo_prefix (t : List Char) :
    ∀ r, '[' ∉ t → tokensOfGo none (t ++ r) = tokensOfGo none r := by
  induction t with
  | nil => intro r _; simp
  | cons c t' ih =>
    intro r ht
    rw [List.cons_append, tokensOfGo_none_cons c _ (fun hcc => ht (by simp [hcc])),
      ih r (fun hx => ht (by simp [hx]))]

theorem subGraphGo_token (imgs : List GraphImage) (ds r : List Char)
    (hne : ds ≠ []) (hds : ∀ c ∈ ds, isDigitCh c = true) :
    subGraphGo imgs none (tokenText ds ++ r) =
      resolveTok imgs ds ++ subGraphGo imgs none r := by
  have h8 : "[[GRAPH_".data = ['[', '[', 'G', 'R', 'A', 'P', 'H', '_'] := rfl
  have h2 : "]]".data = [']', ']'] := rfl
  have hstep : tokenText ds ++ r =
      '[' :: '[' :: 'G' :: 'R' :: 'A' :: 'P' :: 'H' :: '_' :: (ds ++ (']' :: ']' :: r)) := by
    simp [tokenText, h8, h2]
  rw [hstep, subGraphGo_enter, subGraphGo_digits_absorb imgs ds [] _ hds]
  simp only [List.nil_append]
  exact subGraphGo_close imgs ds r hne

theorem tokensOfGo_token (ds r : List Char)
    (hne : ds ≠ []) (hds : ∀ c ∈ ds, isDigitCh c = true) :
    tokensOfGo none (tokenText ds ++ r) = digitsToNat ds :: tokensOfGo none r := by
  have h8 : "[[GRAPH_".data = ['[', '[', 'G', 'R', 'A', 'P', 'H', '_'] := rfl
  have h2 : "]]".data = [']', ']'] := rfl
  have hstep : tokenText ds ++ r =
      '[' :: '[' :: 'G' :: 'R' :: 'A' :: 'P' :: 'H' :: '_' :: (ds ++ (']' :: ']' :: r)) := by
    simp [tokenText, h8, h2]
  rw [hstep, tokensOfGo_enter, tokensOfGo_digits_absorb ds [] _ hds]
  simp only [List.nil_append]
  exact tokensOfGo_close ds r hne

theorem digitCh_ne_lbracket (k : Nat) : digitCh k ≠ '[' := by
  rcases k with _|_|_|_|_|_|_|_|_|_|k <;> simp [digitCh]

theorem natReprFuel_lbracket (fuel : Nat) : ∀ n, '[' ∉ natReprFuel fuel n := by
  induction fuel with
  | zero => intro n; simp [natReprFuel]
  | succ f ih =>
    intro n
    simp only [natReprFuel]
    split
    · intro h
      simp at h
      exact digitCh_ne_lbracket n h.symm
    · intro h
      rcases List.mem_append.mp h with h1 | h2
      · exact ih _ h1
      · simp at h2
        exact digitCh_ne_lbracket _ h2.symm

theorem natReprL_lbracket (n : Nat) : '[' ∉ natReprL n := natReprFuel_lbracket (n + 1) n

theorem escCh_lbracket (c : Char) (hc : c ≠ '[') : '[' ∉ escCh c := by
  by_cases h1 : c = '&'
  · subst h1; decide
  · by_cases h2 : c = '"'
    · subst h2; decide
    · by_cases h3 : c = '<'
      · subst h3; decide
      · by_cases h4 : c = '>'
        · subst h4; decide
        · simp only [escCh, if_neg h1, if_neg h2, if_neg h3, if_neg h4]
          intro h
          simp at h
          exact hc h.symm

theorem escapeAttr_lbracket (l : List Char) (hl : '[' ∉ l) : '[' ∉ escapeAttr l := by
  unfold escapeAttr
  intro h
  rcases List.mem_flatten.mp h with ⟨piece, hp, hin⟩
  rcases List.mem_map.mp hp with ⟨c, hc, rfl⟩
  exact escCh_lbracket c (fun hcc => hl (hcc ▸ hc)) hin

theorem graphBlock_lbracket (n : Nat) (g : GraphImage)
    (hu : '[' ∉ g.url.getD []) (halt : '[' ∉ g.alt.getD []) :
    '[' ∉ graphBlock n g := by
  have haltArg : '[' ∉ g.alt.getD ("Graph ".data ++ natReprL n) := by
    cases hga : g.alt with
    | none =>
      simp only [Option.getD_none]
      intro h
      rcases List.mem_append.mp h with h1 | h2
      · revert h1; decide
      · exact natReprL_lbracket n h2
    | some s =>
      simp only [Option.getD_some]
      simpa [hga] using halt
  unfold graphBlock
  intro h
  simp only [List.mem_append] at h
  rcases h with (((((((h | h) | h) | h) | h) | h) | h) | h)
  · revert h; decide
  · revert h; decide
  · exact escapeAttr_lbracket _ haltArg h
  · revert h; decide
  · exact escapeAttr_lbracket _ hu h
  · revert h; decide
  · revert h; decide
  · revert h; decide

theorem tokenImage_none_iff (imgs : List GraphImage) (n : Nat) (h : 1 ≤ n) :
    tokenImage imgs n = none ↔ imgs.length < n := by
  unfold tokenImage
  rw [if_neg (by omega), List.getElem?_eq_none_iff]
  omega

theorem tokenImage_mem (imgs : List GraphImage) (n : Nat) (g : GraphImage)
    (h : tokenImage imgs n = some g) : g ∈ imgs := by
  unfold tokenImage at h
  split at h
  · have h2 : g ∈ imgs.getLast? := by rw [Option.mem_def]; exact h
    rcases List.mem_getLast?_eq_getLast h2 with ⟨hne, rfl⟩
    exact List.getLast_mem hne
  · exact List.getElem?_mem h

/-- **C4 counterexample.** With exactly enough image descriptors (one, for a
fragment whose only token is `GRAPH_1`), a descriptor whose `alt` value itself
contains a placeholder token leaves a `GRAPH_1` token in the result —
`_escape_attr` does not touch square brackets — so "zero graph tokens remain
whenever the list is long enough" is false as stated. -/
theorem claim_C4_graph_placeholders_counterexample :
    tokensOf (subGraph [⟨some [], some "[[GRAPH_1]]".data⟩] "[[GRAPH_1]]".data) =
      [1] ∧ ([1] : List Nat) ≠ [] := by
  constructor
  · decide
  · decide

/-- **C4 (amended).** For a markup fragment alternating placeholder-free text
with complete `[[GRAPH_<n>]]` tokens (1-indexed), and descriptors whose
url/alt values contain no `[` (so replacement text cannot re-introduce a
token): resolving rewrites exactly the tokens that have a descriptor, in
place; the fragment's token list is the written token list; and the tokens
of the result are exactly the input tokens whose index exceeds the
descriptor-list length — zero remain when the list is long enough, and a
replaced token without an `alt` value uses the default alt `Graph <n>`. -/
theorem claim_C4_graph_placeholders :
    (∀ (parts dss : List (List Char)) (imgs : List GraphImage),
      parts.length = dss.length + 1 →
      (∀ t ∈ parts, '[' ∉ t) →
      (∀ ds ∈ dss, ds ≠ [] ∧ (∀ c ∈ ds, isDigitCh c = true) ∧ 1 ≤ digitsToNat ds) →
      (∀ g ∈ imgs, '[' ∉ g.url.getD [] ∧ '[' ∉ g.alt.getD []) →
      subGraph imgs (interleaveWith parts (dss.map tokenText)) =
        interleaveWith parts (dss.map (resolveTok imgs)) ∧
      tokensOf (interleaveWith parts (dss.map tokenText)) = dss.map digitsToNat ∧
      tokensOf (subGraph imgs (interleaveWith parts (dss.map tokenText))) =
        (dss.map digitsToNat).filter (fun n => decide (imgs.length < n))) ∧
    (∀ (n : Nat) (g : GraphImage), g.alt = none →
      graphBlock n g =
        graphBlock n { g with alt := some ("Graph ".data ++ natReprL n) }) ∧
    (subGraph [⟨some "u".data, some "a".data⟩]
        "<p>x</p>[[GRAPH_1]]mid[[GRAPH_2]]end".data =
      "<p>x</p>".data ++ graphBlock 1 ⟨some "u".data, some "a".data⟩ ++
        ("mid".data ++ ("[[GRAPH_2]]".data ++ "end".data))) := by
  refine ⟨?_, ?_, ?_⟩
  · intro parts dss imgs hlen hparts hdss himgs
    induction dss generalizing parts with
    | nil =>
      rcases parts with _ | ⟨t, parts'⟩
      · simp at hlen
      · have htfree := hparts t (by simp)
        have hz : subGraphGo imgs none ([] : List Char) = [] := rfl
        have tz : tokensOfGo none ([] : List Char) = [] := rfl
        have h1 : subGraph imgs t = t := by
          have := subGraphGo_prefix imgs t [] htfree
          simpa [subGraph, hz] using this
        have h2 : tokensOf t = [] := by
          have := tokensOfGo_prefix t [] htfree
          simpa [tokensOf, tz] using this
        refine ⟨?_, ?_, ?_⟩
        · simpa only [List.map_nil, interleaveWith] using h1
        · simpa only [List.map_nil, interleaveWith] using h2
        · simp only [List.map_nil, interleaveWith, List.filter_nil]
          rw [h1, h2]
    | cons ds dss' ih =>
      rcases parts with _ | ⟨t, parts'⟩
      · simp at hlen
      · have hlen' : parts'.length = dss'.length + 1 := by simp at hlen; omega
        have hds := hdss ds (by simp)
        have htfree := hparts t (by simp)
        obtain ⟨ih1, ih2, ih3⟩ := ih parts' hlen'
          (fun x hx => hparts x (by simp [hx]))
          (fun x hx => hdss x (by simp [hx]))
        simp only [tokensOf] at ih3
        have hresfree : '[' ∉ resolveTok imgs ds ∨
            resolveTok imgs ds = tokenText ds := by
          unfold resolveTok
          cases himg : tokenImage imgs (digitsToNat ds) with
          | none => exact Or.inr rfl
          | some g =>
            rcases himgs g (tokenImage_mem imgs _ g himg) with ⟨hu, halt⟩
            exact Or.inl (graphBlock_lbracket _ g hu halt)
        have hmain : subGraph imgs (interleaveWith (t :: parts')
            ((ds :: dss').map tokenText)) =
            t ++ (resolveTok imgs ds ++
              subGraph imgs (interleaveWith parts' (dss'.map tokenText))) := by
          simp only [List.map_cons, interleaveWith, subGraph]
          rw [List.append_assoc, subGraphGo_prefix imgs t _ htfree,
            subGraphGo_token imgs ds _ hds.1 hds.2.1]
        refine ⟨?_, ?_, ?_⟩
        · rw [hmain, ih1]
          simp [interleaveWith, List.append_assoc]
        · simp only [List.map_cons, interleaveWith, tokensOf]
          rw [List.append_assoc, tokensOfGo_prefix t _ htfree,
            tokensOfGo_token ds _ hds.1 hds.2.1]
          simpa [tokensOf] using ih2
        · rw [hmain]
          have hout : tokensOf (t ++ (resolveTok imgs ds ++
              subGraph imgs (interleaveWith parts' (dss'.map tokenText)))) =
              tokensOf (resolveTok imgs ds ++
                subGraph imgs (interleaveWith parts' (dss'.map tokenText))) := by
            simpa [tokensOf] using
              tokensOfGo_prefix t _ htfree
          rw [hout]
          cases himg : tokenImage imgs (digitsToNat ds) with
          | none =>
            have hkeep : resolveTok imgs ds = tokenText ds := by
              simp [resolveTok, himg]
            have hlt : imgs.length < digitsToNat ds :=
              (tokenImage_none_iff imgs _ hds.2.2).mp himg
            rw [hkeep]
            have := tokensOfGo_token ds
              (subGraph imgs (interleaveWith parts' (dss'.map tokenText)))
              hds.1 hds.2.1
            simp only [tokensOf] at this ⊢
            rw [this]
            simp [hlt, ih3]
          | some g =>
            have hblock : resolveTok imgs ds = graphBlock (digitsToNat ds) g := by
              simp [resolveTok, himg]
            rcases himgs g (tokenImage_mem imgs _ g himg) with ⟨hu, halt⟩
            have hfree : '[' ∉ resolveTok imgs ds := by
              rw [hblock]; exact graphBlock_lbracket _ g hu halt
            have hnlt : ¬ imgs.length < digitsToNat ds := by
              intro hcontra
              rw [(tokenImage_none_iff imgs _ hds.2.2).mpr hcontra] at himg
              cases himg
            have := tokensOfGo_prefix (resolveTok imgs ds)
              (subGraph imgs (interleaveWith parts' (dss'.map tokenText))) hfree
            simp only [tokensOf] at this ⊢
            rw [this]
            simp only [List.map_cons, List.filter_cons]
            rw [if_neg (by simpa using hnlt)]
            exact ih3
  · intro n g halt
    simp [graphBlock, halt]
  · decide

/-- Witness for C4: one placeholder-free gap on each side of a single
`[[GRAPH_2]]` token, resolved against a one-image list: the token survives
verbatim and is the only token of the result. -/
theorem claim_C4_graph_placeholders_witness :
    subGraph [⟨some "u".data, none⟩]
        (interleaveWith ["pre".data, "post".data] (["2".data].map tokenText)) =
      interleaveWith ["pre".data, "post".data]
        (["2".data].map (resolveTok [⟨some "u".data, none⟩])) ∧
    tokensOf (interleaveWith ["pre".data, "post".data] (["2".data].map tokenText)) =
      ["2".data].map digitsToNat ∧
    tokensOf (subGraph [⟨some "u".data, none⟩]
        (interleaveWith ["pre".data, "post".data] (["2".data].map tokenText))) =
      (["2".data].map digitsToNat).filter
        (fun n => decide (([⟨some "u".data, none⟩] : List GraphImage).length < n)) :=
  claim_C4_graph_placeholders.1 ["pre".data, "post".data] ["2".data]
    [⟨some "u".data, none⟩] (by decide) (by decide) (by decide) (by decide)

/-! ## `_fix_iterable_heights` (html_builder.py lines 1513–1536)

```python
pattern = re.compile(r'(<(?:table|tr|td)\b[^>]*\bstyle\s*=\s*")([^"]*)(")', re.IGNORECASE)
height_re = re.compile(r'\bheight\s*:\s*(?:\d+\.\d+|[3-9]\d{2}|\d{4,})px', re.IGNORECASE)

def replace_heights(m):
    pre, style, post = m.group(1), m.group(2), m.group(3)
    if height_re.search(style):
        style = height_re.sub('height:auto', style)
    return pre + style + post

return pattern.sub(replace_heights, html)
```

`height_re` backtracking collapses to a deterministic decision because `px`
begins with a non-digit: the fractional alternative needs digits, a dot,
digits, then `px`; `[3-9]\d{2}` needs exactly a three-digit run (a longer run
puts a digit where `p` must be); `\d{4,}` must swallow the whole digit run. -/

/-- Case-insensitive `startsWithSeq` (the pattern is given in lowercase). -/
def ciStartsWith : List Char → List Char → Bool
  | [], _ => true
  | _ :: _, [] => false
  | p :: ps, c :: cs => lowerCh c = p && ciStartsWith ps cs

/-- Match `(?:\d+\.\d+|[3-9]\d{2}|\d{4,})px` at the head; returns the matched
length. -/
def matchNumberPx (l : List Char) : Option Nat :=
  let ds := l.takeWhile isDigitCh
  let l1 := l.drop ds.length
  if ds = [] then none
  else
    match l1 with
    | '.' :: l2 =>
      let ds2 := l2.takeWhile isDigitCh
      let l3 := l2.drop ds2.length
      if ds2 ≠ [] ∧ ciStartsWith "px".data l3 then
        some (ds.length + 1 + ds2.length + 2)
      else none
    | _ =>
      if ds.length = 3 ∧ '3' ≤ ds.headD '0' ∧ ciStartsWith "px".data l1 then
        some (3 + 2)
      else if 4 ≤ ds.length ∧ ciStartsWith "px".data l1 then
        some (ds.length + 2)
      else none

/-- Match `height\s*:\s*<number>px` at the head (the caller checks the `\b`);
returns the matched length. -/
def matchHeight (l : List Char) : Option Nat :=
  if ciStartsWith "height".data l then
    let l1 := l.drop 6
    let w1 := (l1.takeWhile isPyWs).length
    match l1.drop w1 with
    | ':' :: l3 =>
      let w2 := (l3.takeWhile isPyWs).length
      match matchNumberPx (l3.drop w2) with
      | some k => some (6 + w1 + 1 + w2 + k)
      | none => none
    | _ => none
  else none

/-- `height_re.sub('height:auto', style)`: scan the style string; at each
word boundary try `matchHeight`; on a match emit the replacement and skip the
matched span (the skip counter consumes it structurally), else copy the
character. -/
def heightScanGo : Bool → Nat → List Char → List Char
  | _, _, [] => []
  | _, skp + 1, c :: rest => heightScanGo (isWordCh c) skp rest
  | prev, 0, c :: rest =>
    match (if prev then none else matchHeight (c :: rest)) with
    | some n => "height:auto".data ++ heightScanGo (isWordCh c) (n - 1) rest
    | none => c :: heightScanGo (isWordCh c) 0 rest

def heightSub (l : List Char) : List Char := heightScanGo false 0 l

/-- Match `(?:table|tr|td)\b` (ordered alternation) right after a `<`;
returns the tag-name length. -/
def tagNameMatch (l : List Char) : Option Nat :=
  if ciStartsWith "table".data l ∧ ¬ isWordCh ((l.drop 5).headD ' ') = true then
    some 5
  else if ciStartsWith "tr".data l ∧ ¬ isWordCh ((l.drop 2).headD ' ') = true then
    some 2
  else if ciStartsWith "td".data l ∧ ¬ isWordCh ((l.drop 2).headD ' ') = true then
    some 2
  else none

/-- A candidate for `\bstyle\s*=\s*"` at offset `p` after the tag name;
returns the consumed length including the opening quote. -/
def styleCandidate (tagLast : Char) (afterTag : List Char) (p : Nat) : Option Nat :=
  let prevC := if p = 0 then tagLast else afterTag.getD (p - 1) ' '
  if isWordCh prevC then none
  else if ciStartsWith "style".data (afterTag.drop p) then
    let l1 := (afterTag.drop p).drop 5
    let w1 := (l1.takeWhile isPyWs).length
    match l1.drop w1 with
    | '=' :: l2 =>
      let w2 := (l2.takeWhile isPyWs).length
      match l2.drop w2 with
      | '"' :: _ => some (5 + w1 + 1 + w2 + 1)
      | _ => none
    | _ => none
  else none

/-- The greedy `[^>]*` backtracks to the last `\bstyle\s*=\s*"` (searched
from the highest offset down) that also has a closing `"` later; returns
`(offset, consumedLen, styleValueLen)`. -/
def findLastStyle (tagLast : Char) (afterTag : List Char) : Nat → Option (Nat × Nat × Nat)
  | 0 =>
    match styleCandidate tagLast afterTag 0 with
    | some m =>
      match findCh '"' (afterTag.drop m) with
      | some e => some (0, m, e)
      | none => none
    | none => none
  | p + 1 =>
    match styleCandidate tagLast afterTag (p + 1) with
    | some m =>
      match findCh '"' (afterTag.drop (p + 1 + m)) with
      | some e => some (p + 1, m, e)
      | none => findLastStyle tagLast afterTag p
    | none => findLastStyle tagLast afterTag p

/-- `pattern.sub(replace_heights, html)`: fuelled left-to-right scan; each
match rewrites the style value through `heightSub` and resumes after the
closing quote. -/
def fixHeightsGo : Nat → List Char → List Char
  | 0, l => l
  | _, [] => []
  | f + 1, '<' :: rest =>
    match tagNameMatch rest with
    | some k =>
      let afterTag := rest.drop k
      let segLen := (afterTag.takeWhile (fun c => c != '>')).length
      match findLastStyle (rest.getD (k - 1) ' ') afterTag segLen with
      | some (p, m, e) =>
        '<' :: (rest.take k ++ (afterTag.take (p + m) ++
          (heightSub (((afterTag.drop (p + m)).take e)) ++
            ('"' :: fixHeightsGo f ((afterTag.drop (p + m)).drop (e + 1))))))
      | none => '<' :: fixHeightsGo f rest
    | none => '<' :: fixHeightsGo f rest
  | f + 1, c :: rest => c :: fixHeightsGo f rest

/-- `_fix_iterable_heights(html)`. -/
def fixIterableHeights (l : List Char) : List Char := fixHeightsGo (l.length + 1) l

theorem takeWhileAllAppend (p : Char → Bool) (u : List Char) :
    ∀ v, (∀ c ∈ u, p c = true) → (u ++ v).takeWhile p = u ++ v.takeWhile p := by
  induction u with
  | nil => intro v _; simp
  | cons a u' ih =>
    intro v h
    simp only [List.cons_append, List.takeWhile_cons, h a (by simp)]
    rw [ih v (fun c hc => h c (by simp [hc]))]
    simp

theorem isDigit_not_ws (c : Char) (h : isDigitCh c = true) : isPyWs c = false := by
  cases hw : isPyWs c with
  | false => rfl
  | true =>
    exfalso
    simp only [isPyWs, Bool.or_eq_true, decide_eq_true_eq] at hw
    rcases hw with ((((rfl | rfl) | rfl) | rfl) | rfl) | rfl <;> revert h <;> decide

theorem isDigit_lower (c : Char) (h : isDigitCh c = true) : lowerCh c = c := by
  simp only [isDigitCh, Bool.and_eq_true, decide_eq_true_eq] at h
  unfold lowerCh
  rw [if_neg]
  rintro ⟨hA, _⟩
  exact absurd (le_trans hA h.2) (by decide)

theorem isDigit_lower_ne_h (c : Char) (h : isDigitCh c = true) : lowerCh c ≠ 'h' := by
  rw [isDigit_lower c h]
  rintro rfl
  revert h; decide

theorem matchHeight_notH (c : Char) (rest : List Char) (h : lowerCh c ≠ 'h') :
    matchHeight (c :: rest) = none := by
  have : ciStartsWith "height".data (c :: rest) = false := by
    have h8 : "height".data = ['h', 'e', 'i', 'g', 'h', 't'] := rfl
    rw [h8]
    simp [ciStartsWith, h]
  simp [matchHeight, this]

theorem heightScan_word_step (c : Char) (rest : List Char) :
    heightScanGo true 0 (c :: rest) = c :: heightScanGo (isWordCh c) 0 rest := by
  simp [heightScanGo]

theorem heightScan_head_fail (prev : Bool) (c : Char) (rest : List Char)
    (h : matchHeight (c :: rest) = none) :
    heightScanGo prev 0 (c :: rest) = c :: heightScanGo (isWordCh c) 0 rest := by
  cases prev <;> simp [heightScanGo, h]

theorem heightScan_run (l : List Char) : ∀ prev, (∀ c ∈ l, lowerCh c ≠ 'h') →
    heightScanGo prev 0 l = l := by
  induction l with
  | nil => intro prev _; rfl
  | cons c rest ih =>
    intro prev h
    rw [heightScan_head_fail prev c rest (matchHeight_notH c rest (h c (by simp)))]
    rw [ih (isWordCh c) (fun x hx => h x (by simp [hx]))]

theorem heightScan_wordRun (w : List Char) :
    ∀ X, (∀ c ∈ w, isWordCh c = true) →
    heightScanGo true 0 (w ++ X) = w ++ heightScanGo true 0 X := by
  induction w with
  | nil => intro X _; simp
  | cons c w' ih =>
    intro X h
    rw [List.cons_append, heightScan_word_step, h c (by simp),
      ih X (fun x hx => h x (by simp [hx]))]
    simp

theorem heightScan_skip_all (l : List Char) : ∀ (prev : Bool) (k : Nat),
    l.length ≤ k → heightScanGo prev k l = [] := by
  induction l with
  | nil => intro prev k _; cases k <;> rfl
  | cons c rest ih =>
    intro prev k hk
    match k, hk with
    | k' + 1, hk =>
      simp only [heightScanGo]
      exact ih (isWordCh c) k' (by simpa using Nat.lt_succ_iff.mp (Nat.lt_of_lt_of_le (Nat.lt_succ_self _) hk))

theorem heightSub_full (rest : List Char) (n : Nat)
    (h : matchHeight ('h' :: rest) = some n) (hlen : rest.length = n - 1) :
    heightSub ('h' :: rest) = "height:auto".data := by
  have hstep : heightScanGo false 0 ('h' :: rest) =
      "height:auto".data ++ heightScanGo (isWordCh 'h') (n - 1) rest := by
    simp [heightScanGo, h]
  unfold heightSub
  rw [hstep, heightScan_skip_all rest (isWordCh 'h') (n - 1) (le_of_eq hlen)]
  simp

theorem matchNumberPx_frac (ds ds2 : List Char) (h1 : ds ≠ []) (h2 : ds2 ≠ [])
    (hd : ∀ c ∈ ds, isDigitCh c = true) (hd2 : ∀ c ∈ ds2, isDigitCh c = true) :
    matchNumberPx (ds ++ '.' :: (ds2 ++ "px".data)) =
      some (ds.length + 1 + ds2.length + 2) := by
  have hdot : isDigitCh '.' = false := by decide
  have ht : (ds ++ '.' :: (ds2 ++ "px".data)).takeWhile isDigitCh = ds := by
    rw [takeWhileAllAppend isDigitCh ds _ hd]
    simp [List.takeWhile_cons, hdot]
  have hdrop : (ds ++ '.' :: (ds2 ++ "px".data)).drop ds.length = '.' :: (ds2 ++ "px".data) :=
    List.drop_left ds _
  have hpfalse : isDigitCh 'p' = false := by decide
  have ht2 : (ds2 ++ "px".data).takeWhile isDigitCh = ds2 := by
    rw [takeWhileAllAppend isDigitCh ds2 _ hd2]
    have hpx2 : List.takeWhile isDigitCh "px".data = [] := rfl
    simp [hpx2]
  have hdrop2 : (ds2 ++ "px".data).drop ds2.length = "px".data := List.drop_left ds2 _
  unfold matchNumberPx
  simp only [ht, hdrop, ht2, hdrop2, if_neg h1]
  rw [if_pos ⟨h2, by decide⟩]

theorem matchNumberPx_int (ds : List Char) (h1 : ds ≠ [])
    (hd : ∀ c ∈ ds, isDigitCh c = true) :
    matchNumberPx (ds ++ "px".data) =
      if (ds.length = 3 ∧ '3' ≤ ds.headD '0') ∨ 4 ≤ ds.length then
        some (ds.length + 2)
      else none := by
  have ht : (ds ++ "px".data).takeWhile isDigitCh = ds := by
    rw [takeWhileAllAppend isDigitCh ds _ hd]
    have hpx2 : List.takeWhile isDigitCh "px".data = [] := rfl
    simp [hpx2]
  have hdrop : (ds ++ "px".data).drop ds.length = "px".data := List.drop_left ds _
  have hpx : ciStartsWith "px".data "px".data = true := by decide
  unfold matchNumberPx
  simp only [ht, hdrop, if_neg h1]
  split
  · rename_i l2 heq
    exfalso
    simp at heq
  · by_cases hc3 : ds.length = 3 ∧ '3' ≤ ds.headD '0'
    · rw [if_pos ⟨hc3.1, hc3.2, by decide⟩, if_pos (Or.inl hc3)]
      rw [hc3.1]
    · by_cases hc4 : 4 ≤ ds.length
      · rw [if_neg (by tauto), if_pos ⟨hc4, by decide⟩, if_pos (Or.inr hc4)]
      · rw [if_neg (by tauto), if_neg (by tauto), if_neg (by tauto)]

theorem matchHeight_prefix (X : List Char) (d : Char) (X' : List Char)
    (hX : X = d :: X') (hd : isDigitCh d = true) :
    matchHeight ("height:".data ++ X) =
      match matchNumberPx X with
      | some k => some (7 + k)
      | none => none := by
  have hshape : "height:".data ++ X = 'h' :: 'e' :: 'i' :: 'g' :: 'h' :: 't' :: ':' :: X := rfl
  rw [hshape]
  have hci : ciStartsWith "height".data
      ('h' :: 'e' :: 'i' :: 'g' :: 'h' :: 't' :: ':' :: X) = true := by
    have h6 : "height".data = ['h', 'e', 'i', 'g', 'h', 't'] := rfl
    rw [h6]
    simp [ciStartsWith, lowerCh]
  have hws : X.takeWhile isPyWs = [] := by
    rw [hX]
    simp [List.takeWhile_cons, isDigit_not_ws d hd]
  unfold matchHeight
  rw [if_pos hci]
  simp only [List.drop_succ_cons, List.drop_zero, List.takeWhile_cons]
  have hcol : isPyWs ':' = false := by decide
  simp only [hcol, Bool.false_eq_true, if_false, List.length_nil, List.drop_zero, hws]

/-- **C6 counterexample.** `style="height:0299px"` on a `<td>`: the integer
pixel value is 299, below the 300 threshold, yet the code rewrites it to
`height:auto` (the `\d{4,}` alternative counts digits, not value), so "leaves
every integer pixel height below 300 unchanged" is false as stated. -/
theorem claim_C6_heights_counterexample :
    fixIterableHeights "<td style=\"height:0299px\">x</td>".data =
      "<td style=\"height:auto\">x</td>".data ∧
    fixIterableHeights "<td style=\"height:0299px\">x</td>".data ≠
      "<td style=\"height:0299px\">x</td>".data := by
  constructor
  · decide
  · decide

/-- **C6 (amended).** Inside the style attribute of a table/tr/td element the
height pass rewrites a `height:<num>px` declaration to `height:auto` exactly
when the numeral is written with a decimal point (digits on both sides), or
as three digits starting 3–9 (value 300–999), or as four or more digits
(which includes zero-padded sub-300 values such as `0299px`); other integer
writings below 300 are left unchanged, as are fractional forms without a
leading digit (`.5px`); Scenario D evaluates as specified. -/
theorem claim_C6_heights :
    (∀ ds ds2 : List Char, ds ≠ [] → ds2 ≠ [] →
      (∀ c ∈ ds, isDigitCh c = true) → (∀ c ∈ ds2, isDigitCh c = true) →
      heightSub ("height:".data ++ (ds ++ '.' :: (ds2 ++ "px".data))) =
        "height:auto".data) ∧
    (∀ ds : List Char, ds ≠ [] → (∀ c ∈ ds, isDigitCh c = true) →
      heightSub ("height:".data ++ (ds ++ "px".data)) =
        if (ds.length = 3 ∧ '3' ≤ ds.headD '0') ∨ 4 ≤ ds.length then
          "height:auto".data
        else "height:".data ++ (ds ++ "px".data)) ∧
    (heightSub "height:.5px".data = "height:.5px".data) ∧
    (fixIterableHeights "<td style=\"height:1886.73px\">x</td>".data =
      "<td style=\"height:auto\">x</td>".data) ∧
    (fixIterableHeights "<td style=\"height:120px\">x</td>".data =
      "<td style=\"height:120px\">x</td>".data) := by
  refine ⟨?_, ?_, by decide, by decide, by decide⟩
  · intro ds ds2 h1 h2 hd hd2
    obtain ⟨d, ds', rfl⟩ : ∃ d ds', ds = d :: ds' := by
      cases ds with
      | nil => exact absurd rfl h1
      | cons a b => exact ⟨a, b, rfl⟩
    have hm := matchHeight_prefix ((d :: ds') ++ '.' :: (ds2 ++ "px".data)) d
      (ds' ++ '.' :: (ds2 ++ "px".data)) rfl (hd d (by simp))
    rw [matchNumberPx_frac (d :: ds') ds2 h1 h2 hd hd2] at hm
    have hshape : "height:".data ++ ((d :: ds') ++ '.' :: (ds2 ++ "px".data)) =
        'h' :: ("eight:".data ++ ((d :: ds') ++ '.' :: (ds2 ++ "px".data))) := rfl
    rw [hshape] at hm ⊢
    apply heightSub_full _ _ hm
    simp [List.length_append]
    omega
  · intro ds h1 hd
    obtain ⟨d, ds', rfl⟩ : ∃ d ds', ds = d :: ds' := by
      cases ds with
      | nil => exact absurd rfl h1
      | cons a b => exact ⟨a, b, rfl⟩
    have hm := matchHeight_prefix ((d :: ds') ++ "px".data) d
      (ds' ++ "px".data) rfl (hd d (by simp))
    rw [matchNumberPx_int (d :: ds') h1 hd] at hm
    by_cases hcond : ((d :: ds').length = 3 ∧ '3' ≤ (d :: ds').headD '0') ∨
        4 ≤ (d :: ds').length
    · rw [if_pos hcond] at hm
      rw [if_pos hcond]
      have hshape : "height:".data ++ ((d :: ds') ++ "px".data) =
          'h' :: ("eight:".data ++ ((d :: ds') ++ "px".data)) := rfl
      rw [hshape] at hm ⊢
      apply heightSub_full _ _ hm
      simp [List.length_append]
      omega
    · rw [if_neg hcond] at hm
      rw [if_neg hcond]
      have hshape : "height:".data ++ ((d :: ds') ++ "px".data) =
          'h' :: ("eight:".data ++ ((d :: ds') ++ "px".data)) := rfl
      rw [hshape] at hm ⊢
      unfold heightSub
      rw [heightScan_head_fail false 'h' _ hm]
      have hword : isWordCh 'h' = true := by decide
      rw [hword]
      have hsplit : "eight:".data ++ ((d :: ds') ++ "px".data) =
          "eight".data ++ (':' :: ((d :: ds') ++ "px".data)) := rfl
      rw [hsplit, heightScan_wordRun "eight".data _ (by decide),
        heightScan_word_step]
      have hcolon : isWordCh ':' = false := by decide
      rw [hcolon, heightScan_run _ false]
      intro c hc
      rcases List.mem_append.mp hc with hcd | hcp
      · exact isDigit_lower_ne_h c (hd c hcd)
      · have hpx : c = 'p' ∨ c = 'x' := by
          have h2 : "px".data = ['p', 'x'] := rfl
          rw [h2] at hcp
          simpa using hcp
        rcases hpx with rfl | rfl <;> decide

/-- Witness for C6: Scenario D's two numerals pushed through the amended
characterization (1886.73 fractional, 120 an unchanged small integer). -/
theorem claim_C6_heights_witness :
    heightSub ("height:".data ++ ("1886".data ++ '.' :: ("73".data ++ "px".data))) =
      "height:auto".data ∧
    heightSub ("height:".data ++ ("120".data ++ "px".data)) =
      (if ("120".data.length = 3 ∧ '3' ≤ "120".data.headD '0') ∨ 4 ≤ "120".data.length
       then "height:auto".data
       else "height:".data ++ ("120".data ++ "px".data)) :=
  ⟨claim_C6_heights.1 "1886".data "73".data (by decide) (by decide) (by decide)
      (by decide),
   claim_C6_heights.2.1 "120".data (by decide) (by decide)⟩

/-! ## `_inject_teaser_body` fade classification (html_builder.py lines 349–398, 485–520)
and `_norm_fade` (lines 1180–1192)

```python
fade_from = (fields.get('fade_from') or '').strip().lower()
...
fade_idx = len(blocks)
if fade_from:
    fade_key = _norm_fade(fade_from[:60])
    for i, el in enumerate(blocks):
        if fade_key and fade_key in _norm_fade(el.get_text()):
            fade_idx = i
            break
visible_blocks = list(blocks[:fade_idx])
faded_blocks = blocks[fade_idx:]
```

Blocks are the top-level elements of the parsed article body, modelled by
tag name, style attribute, class list and inner markup. -/

/-- `_norm_fade` as a character map: `str.lower` first, then the punctuation
replacements (each source replacement rewrites one character to one
character, so the chained `str.replace` calls equal one map). -/
def normFadeCh (c : Char) : Char :=
  let c := lowerCh c
  if c = '‘' ∨ c = '’' ∨ c = '�' then '\''
  else if c = '“' ∨ c = '”' then '"'
  else if c = '–' ∨ c = '—' then '-'
  else c

def normFade (l : List Char) : List Char := l.map normFadeCh

def pyLower (l : List Char) : List Char := l.map lowerCh

/-- `_norm_fade(fade_from[:60])` for the already stripped/lowered phrase. -/
def fadeKeyOf (fadeFrom : List Char) : List Char :=
  normFade ((pyLower (pyStrip fadeFrom)).take 60)

structure TBlock where
  tag : List Char
  style : List Char
  classes : List (List Char)
  inner : List Char

/-- `fade_key and fade_key in _norm_fade(el.get_text())`. -/
def fadeHit (key : List Char) (b : TBlock) : Prop :=
  key ≠ [] ∧ containsSeq key (normFade (extractText b.inner)) = true

instance (key : List Char) (b : TBlock) : Decidable (fadeHit key b) := by
  unfold fadeHit
  infer_instance

def findFadeIdx (key : List Char) : List TBlock → Nat
  | [] => 0
  | b :: rest =>
    if fadeHit key b then 0 else 1 + findFadeIdx key rest

/-- The loop of lines 374–380: index of the first block hit by the fade key,
`len(blocks)` when the phrase is empty or no block matches. -/
def fadeIdx (fadeFrom : List Char) (blocks : List TBlock) : Nat :=
  if pyLower (pyStrip fadeFrom) = [] then blocks.length
  else findFadeIdx (fadeKeyOf fadeFrom) blocks

/-- `str.rstrip(';')`. -/
def rstripSemi (l : List Char) : List Char :=
  (l.reverse.dropWhile (fun c => c == ';')).reverse

def joinSpace : List (List Char) → List Char
  | [] => []
  | [c] => c
  | c :: rest => c ++ " ".data ++ joinSpace rest

def mkSpanMedium (h : List Char) : List Char :=
  "<span style=\"opacity:0.5;\">".data ++ h ++ "</span>".data

def mkSpanLight (h : List Char) : List Char :=
  "<span style=\"opacity:0.2;\">".data ++ h ++ "</span>".data

/-- The section-6 content (lines 491–516): cleared, then at most one fade
element built from the first faded block; `none` when nothing is appended
(no faded block, or both split halves empty). -/
def teaserSection6 : List TBlock → Option (List Char)
  | [] => none
  | b :: _ =>
    let tag := if b.tag = [] then "p".data else b.tag
    let baseStyle := rstripSemi b.style
    let baseClasses := b.classes.filter
      (fun c => ¬(c = "fade-out-light".data ∨ c = "fade-out-medium".data))
    let halves := splitFadeParagraph b.inner
    let parts := (if halves.1 ≠ [] then [mkSpanMedium halves.1] else []) ++
      (if halves.2 ≠ [] then [mkSpanLight halves.2] else [])
    if parts = [] then none
    else
      let clsAttr := if baseClasses = [] then ([] : List Char)
        else " class=\"".data ++ joinSpace baseClasses ++ "\"".data
      let sty := if baseStyle = [] then ([] : List Char) else baseStyle ++ ";".data
      some ('<' :: tag ++ clsAttr ++ " style=\"".data ++ sty ++ "\">".data ++
        parts.flatten ++ "</".data ++ tag ++ ">".data)

theorem findFadeIdx_le (key : List Char) (bs : List TBlock) :
    findFadeIdx key bs ≤ bs.length := by
  induction bs with
  | nil => simp [findFadeIdx]
  | cons b rest ih =>
    simp only [findFadeIdx, List.length_cons]
    by_cases h : fadeHit key b
    · rw [if_pos h]; omega
    · rw [if_neg h]; omega

theorem findFadeIdx_before (key : List Char) (bs : List TBlock) (dflt : TBlock) :
    ∀ j, j < findFadeIdx key bs → ¬ fadeHit key (bs.getD j dflt) := by
  induction bs with
  | nil => intro j hj; simp [findFadeIdx] at hj
  | cons b rest ih =>
    intro j hj
    simp only [findFadeIdx] at hj
    split at hj
    · omega
    · cases j with
      | zero => simpa using (by assumption : ¬ fadeHit key b)
      | succ j' => simpa using ih j' (by omega)

theorem findFadeIdx_hit (key : List Char) (bs : List TBlock) (dflt : TBlock)
    (h : findFadeIdx key bs < bs.length) :
    fadeHit key (bs.getD (findFadeIdx key bs) dflt) := by
  induction bs with
  | nil => simp [findFadeIdx] at h
  | cons b rest ih =>
    simp only [findFadeIdx] at h ⊢
    split
    · simpa using (by assumption)
    · rename_i hmiss
      simp only [List.length_cons] at h
      rw [if_neg hmiss] at h
      have hr : findFadeIdx key rest < rest.length := by omega
      have harith : 1 + findFadeIdx key rest = findFadeIdx key rest + 1 := by omega
      rw [harith, List.getD_cons_succ]
      exact ih hr

theorem findFadeIdx_all_miss (key : List Char) (bs : List TBlock)
    (h : ∀ b ∈ bs, ¬ fadeHit key b) : findFadeIdx key bs = bs.length := by
  induction bs with
  | nil => rfl
  | cons b rest ih =>
    simp only [findFadeIdx]
    rw [if_neg (h b (by simp)), ih (fun x hx => h x (by simp [hx]))]
    simp [Nat.add_comm]

theorem fadeKeyOf_empty (f : List Char) (h : pyLower (pyStrip f) = []) :
    fadeKeyOf f = [] := by
  unfold fadeKeyOf
  rw [h]
  rfl

/-- **C9.** The fade-trigger comparison depends only on the first 60
characters of the stripped, lowered, punctuation-normalised phrase; the first
block whose normalised plain text contains that key starts the faded set, all
earlier blocks miss it; and when the phrase is empty or no block matches,
every block is classified visible (the visible prefix is the whole list) and
the faded section stays empty with no fade element produced. -/
theorem claim_C9_teaser_fade :
    (∀ (f g : List Char) (blocks : List TBlock),
      fadeKeyOf f = fadeKeyOf g →
      (pyLower (pyStrip f) = [] ↔ pyLower (pyStrip g) = []) →
      fadeIdx f blocks = fadeIdx g blocks) ∧
    (∀ (f : List Char) (blocks : List TBlock) (dflt : TBlock),
      fadeIdx f blocks ≤ blocks.length ∧
      (∀ j, j < fadeIdx f blocks → ¬ fadeHit (fadeKeyOf f) (blocks.getD j dflt)) ∧
      (fadeIdx f blocks < blocks.length →
        fadeHit (fadeKeyOf f) (blocks.getD (fadeIdx f blocks) dflt))) ∧
    (∀ (f : List Char) (blocks : List TBlock),
      pyLower (pyStrip f) = [] →
      fadeIdx f blocks = blocks.length ∧
      blocks.take (fadeIdx f blocks) = blocks ∧
      teaserSection6 (blocks.drop (fadeIdx f blocks)) = none) ∧
    (∀ (f : List Char) (blocks : List TBlock),
      (∀ b ∈ blocks, ¬ fadeHit (fadeKeyOf f) b) →
      fadeIdx f blocks = blocks.length ∧
      blocks.take (fadeIdx f blocks) = blocks ∧
      teaserSection6 (blocks.drop (fadeIdx f blocks)) = none) := by
  refine ⟨?_, ?_, ?_, ?_⟩
  · intro f g blocks hkey hiff
    unfold fadeIdx
    by_cases hf : pyLower (pyStrip f) = []
    · rw [if_pos hf, if_pos (hiff.mp hf)]
    · rw [if_neg hf, if_neg (fun hg => hf (hiff.mpr hg)), hkey]
  · intro f blocks dflt
    unfold fadeIdx
    by_cases hf : pyLower (pyStrip f) = []
    · rw [if_pos hf]
      refine ⟨le_rfl, ?_, by omega⟩
      intro j _
      rw [fadeKeyOf_empty f hf]
      rintro ⟨hne, _⟩
      exact hne rfl
    · rw [if_neg hf]
      exact ⟨findFadeIdx_le _ _, findFadeIdx_before _ _ dflt,
        findFadeIdx_hit _ _ dflt⟩
  · intro f blocks hf
    unfold fadeIdx
    rw [if_pos hf]
    exact ⟨rfl, List.take_length blocks, by rw [List.drop_length]; rfl⟩
  · intro f blocks hmiss
    unfold fadeIdx
    by_cases hf : pyLower (pyStrip f) = []
    · rw [if_pos hf]
      exact ⟨rfl, List.take_length blocks, by rw [List.drop_length]; rfl⟩
    · rw [if_neg hf, findFadeIdx_all_miss _ _ hmiss]
      exact ⟨rfl, List.take_length blocks, by rw [List.drop_length]; rfl⟩

/-- Witness for C9: a phrase matching the second of three blocks — the index
is 1, block 0 misses, block 1 hits — and the empty phrase classifying all
blocks visible with no fade element. -/
theorem claim_C9_teaser_fade_witness :
    (fadeIdx "The KEY phrase".data
        [⟨"p".data, [], [], "<b>Intro</b> text.".data⟩,
         ⟨"p".data, [], [], "Here the key phrase appears.".data⟩,
         ⟨"p".data, [], [], "Tail.".data⟩] ≤ 3 ∧
      (∀ j, j < fadeIdx "The KEY phrase".data
          [⟨"p".data, [], [], "<b>Intro</b> text.".data⟩,
           ⟨"p".data, [], [], "Here the key phrase appears.".data⟩,
           ⟨"p".data, [], [], "Tail.".data⟩] →
        ¬ fadeHit (fadeKeyOf "The KEY phrase".data)
          (([⟨"p".data, [], [], "<b>Intro</b> text.".data⟩,
             ⟨"p".data, [], [], "Here the key phrase appears.".data⟩,
             ⟨"p".data, [], [], "Tail.".data⟩] : List TBlock).getD j
            ⟨"p".data, [], [], []⟩)) ∧
      (fadeIdx "The KEY phrase".data
          [⟨"p".data, [], [], "<b>Intro</b> text.".data⟩,
           ⟨"p".data, [], [], "Here the key phrase appears.".data⟩,
           ⟨"p".data, [], [], "Tail.".data⟩] < 3 →
        fadeHit (fadeKeyOf "The KEY phrase".data)
          (([⟨"p".data, [], [], "<b>Intro</b> text.".data⟩,
             ⟨"p".data, [], [], "Here the key phrase appears.".data⟩,
             ⟨"p".data, [], [], "Tail.".data⟩] : List TBlock).getD
            (fadeIdx "The KEY phrase".data
              [⟨"p".data, [], [], "<b>Intro</b> text.".data⟩,
               ⟨"p".data, [], [], "Here the key phrase appears.".data⟩,
               ⟨"p".data, [], [], "Tail.".data⟩])
            ⟨"p".data, [], [], []⟩))) ∧
    (fadeIdx [] [⟨"p".data, [], [], "Only text.".data⟩] = 1 ∧
      ([⟨"p".data, [], [], "Only text.".data⟩] : List TBlock).take
        (fadeIdx [] [⟨"p".data, [], [], "Only text.".data⟩]) =
        [⟨"p".data, [], [], "Only text.".data⟩] ∧
      teaserSection6 (([⟨"p".data, [], [], "Only text.".data⟩] : List TBlock).drop
        (fadeIdx [] [⟨"p".data, [], [], "Only text.".data⟩])) = none) :=
  ⟨claim_C9_teaser_fade.2.1 "The KEY phrase".data
      [⟨"p".data, [], [], "<b>Intro</b> text.".data⟩,
       ⟨"p".data, [], [], "Here the key phrase appears.".data⟩,
       ⟨"p".data, [], [], "Tail.".data⟩] ⟨"p".data, [], [], []⟩,
   claim_C9_teaser_fade.2.2.1 [] [⟨"p".data, [], [], "Only text.".data⟩] (by decide)⟩

/-! ## `apply_email_fixes` (html_builder.py lines 1291–1354) and its passes

```python
soup = BeautifulSoup(html, 'html.parser')
... tree passes 1-6 and 9 ...
html = str(soup)
html = _apply_link_fixes(html)
html = _inject_gmail_ios_css(html)
html = _fix_iterable_heights(html)
```

The soup phase is modelled by a simplified html.parser/BeautifulSoup pair:
a fuel-driven recursive-descent parser into an element forest (rawtext
`style`/`script`, void elements closed immediately, unmatched end tags
ignored, text and double-quoted attribute values entity-decoded), the tree
passes transcribed per node, and the serializer with the minimal formatter
escaping (`&`/`<`/`>` in text, plus `"` in attribute values) and `/>` on
void elements.  Scope of the model, fixed by the concrete inputs used
below: valued double-quoted attributes and regular whitespace in class
attributes.  The nine tree passes are applied in one traversal: their
trigger tag sets are pairwise disjoint and every rename targets `span`,
which no pass matches, so per-node sequencing equals the pass-by-pass
loops of the source. -/

def isAsciiAlpha (c : Char) : Bool :=
  ('a' ≤ c && c ≤ 'z') || ('A' ≤ c && c ≤ 'Z')

def isTagNameCh (c : Char) : Bool :=
  isAsciiAlpha c || isDigitCh c || c == '-' || c == '.' || c == ':' || c == '_'

def isAttrNameCh (c : Char) : Bool :=
  !(isPyWs c || c == '/' || c == '=' || c == '>')

/-- html.parser entity decoding restricted to the five entities the
serializer emits. -/
def decodeEntGo : List Char → List Char
  | [] => []
  | '&' :: 'a' :: 'm' :: 'p' :: ';' :: rest => '&' :: decodeEntGo rest
  | '&' :: 'l' :: 't' :: ';' :: rest => '<' :: decodeEntGo rest
  | '&' :: 'g' :: 't' :: ';' :: rest => '>' :: decodeEntGo rest
  | '&' :: 'q' :: 'u' :: 'o' :: 't' :: ';' :: rest => '"' :: decodeEntGo rest
  | '&' :: '#' :: '3' :: '9' :: ';' :: rest => Char.ofNat 39 :: decodeEntGo rest
  | c :: rest => c :: decodeEntGo rest

/-- Case-insensitive split at the first occurrence of `pat` (given in
lowercase): (before, matched original segment, after). -/
def splitAtSeqCi (pat : List Char) : List Char → Option (List Char × List Char × List Char)
  | [] => none
  | c :: rest =>
    if ciStartsWith pat (c :: rest) then
      some ([], (c :: rest).take pat.length, (c :: rest).drop pat.length)
    else
      match splitAtSeqCi pat rest with
      | some r => some (c :: r.1, r.2.1, r.2.2)
      | none => none

inductive Node where
  | text : List Char → Node
  | raw : List Char → List (List Char × List Char) → List Char → Node
  | velem : List Char → List (List Char × List Char) → Node
  | elem : List Char → List (List Char × List Char) → List Node → Node

def isVoidTag (t : List Char) : Bool :=
  t == "img".data || t == "br".data || t == "hr".data || t == "meta".data ||
  t == "link".data || t == "input".data || t == "area".data || t == "base".data ||
  t == "col".data || t == "embed".data || t == "source".data ||
  t == "track".data || t == "wbr".data

def parseAttrsGo : Nat → List Char → List (List Char × List Char) × List Char
  | 0, r => ([], r)
  | fuel+1, r0 =>
    let r := r0.dropWhile isPyWs
    match r with
    | [] => ([], [])
    | '>' :: rest => ([], rest)
    | '/' :: '>' :: rest => ([], rest)
    | _ =>
      let name := pyLower (r.takeWhile isAttrNameCh)
      let r1 := (r.dropWhile isAttrNameCh).dropWhile isPyWs
      match r1 with
      | '=' :: r2 =>
        match r2.dropWhile isPyWs with
        | '"' :: r4 =>
          let v := r4.takeWhile (fun ch => ch != '"')
          let r5 := (r4.dropWhile (fun ch => ch != '"')).drop 1
          let pr := parseAttrsGo fuel r5
          ((name, decodeEntGo v) :: pr.1, pr.2)
        | r3 =>
          let v := r3.takeWhile (fun ch => !(isPyWs ch || ch == '>'))
          let r5 := r3.dropWhile (fun ch => !(isPyWs ch || ch == '>'))
          let pr := parseAttrsGo fuel r5
          ((name, decodeEntGo v) :: pr.1, pr.2)
      | r1x =>
        let pr := parseAttrsGo fuel r1x
        ((name, []) :: pr.1, pr.2)

/-- `</name>` (optionally `</name  >`) consumed when it is the expected close. -/
def dropCloseTag (name : List Char) (r : List Char) : List Char :=
  if ciStartsWith ("</".data ++ name) r then
    match (r.drop (2 + name.length)).dropWhile isPyWs with
    | '>' :: t2 => t2
    | _ => r
  else r

def parseGo : Nat → List Char → List Node × List Char
  | 0, rest => ([], rest)
  | _+1, [] => ([], [])
  | _+1, '<' :: '/' :: r => ([], '<' :: '/' :: r)
  | fuel+1, '<' :: c :: r =>
    if isAsciiAlpha c then
      let name := pyLower (c :: r.takeWhile isTagNameCh)
      let pr := parseAttrsGo fuel (r.dropWhile isTagNameCh)
      if name = "style".data ∨ name = "script".data then
        match splitAtSeqCi ("</".data ++ name ++ ">".data) pr.2 with
        | some st =>
          let ns := parseGo fuel st.2.2
          (Node.raw name pr.1 st.1 :: ns.1, ns.2)
        | none => ([Node.raw name pr.1 pr.2], [])
      else if isVoidTag name then
        let ns := parseGo fuel pr.2
        (Node.velem name pr.1 :: ns.1, ns.2)
      else
        let ch := parseGo fuel pr.2
        let ns := parseGo fuel (dropCloseTag name ch.2)
        (Node.elem name pr.1 ch.1 :: ns.1, ns.2)
    else
      let ns := parseGo fuel (c :: r)
      (Node.text ['<'] :: ns.1, ns.2)
  | _+1, ['<'] => ([Node.text ['<']], [])
  | fuel+1, s =>
    let txt := s.takeWhile (fun ch => ch != '<')
    let ns := parseGo fuel (s.dropWhile (fun ch => ch != '<'))
    (Node.text (decodeEntGo txt) :: ns.1, ns.2)

def dropTopClose (r : List Char) : List Char :=
  (r.dropWhile (fun ch => ch != '>')).drop 1

def parseForest : Nat → List Char → List Node
  | 0, _ => []
  | fuel+1, s =>
    let pr := parseGo fuel s
    match pr.2 with
    | [] => pr.1
    | rest => pr.1 ++ parseForest fuel (dropTopClose rest)

def escTextCh (c : Char) : List Char :=
  if c = '&' then "&amp;".data
  else if c = '<' then "&lt;".data
  else if c = '>' then "&gt;".data
  else [c]

def escText (s : List Char) : List Char := (s.map escTextCh).flatten

def escAttrCh (c : Char) : List Char :=
  if c = '&' then "&amp;".data
  else if c = '<' then "&lt;".data
  else if c = '>' then "&gt;".data
  else if c = '"' then "&quot;".data
  else [c]

def escAttrVal (v : List Char) : List Char := (v.map escAttrCh).flatten

def serAttrs : List (List Char × List Char) → List Char
  | [] => []
  | (n, v) :: rest => ' ' :: (n ++ '=' :: '"' :: (escAttrVal v ++ '"' :: serAttrs rest))

def serGo : Nat → List (Node ⊕ List Char) → List Char
  | 0, _ => []
  | _+1, [] => []
  | fuel+1, Sum.inr s :: k => s ++ serGo fuel k
  | fuel+1, Sum.inl n :: k =>
    match n with
    | Node.text s => escText s ++ serGo fuel k
    | Node.raw t a c =>
      ('<' :: (t ++ serAttrs a ++ ">".data ++ c ++ "</".data ++ t ++ ">".data)) ++
        serGo fuel k
    | Node.velem t a =>
      ('<' :: (t ++ serAttrs a ++ "/>".data)) ++ serGo fuel k
    | Node.elem t a cs =>
      ('<' :: (t ++ serAttrs a ++ ">".data)) ++
        serGo fuel (cs.map Sum.inl ++ (Sum.inr ("</".data ++ t ++ ">".data) :: k))

def attrGet : List (List Char × List Char) → List Char → List Char → List Char
  | [], _, dflt => dflt
  | (k, v) :: rest, n, dflt => if k == n then v else attrGet rest n dflt

def hasAttrB : List (List Char × List Char) → List Char → Bool
  | [], _ => false
  | (k, _) :: rest, n => k == n || hasAttrB rest n

/-- `tag[name] = value`: replaced in place when present, appended when new. -/
def setAttr : List (List Char × List Char) → List Char → List Char →
    List (List Char × List Char)
  | [], n, v => [(n, v)]
  | (k, w) :: rest, n, v => if k == n then (n, v) :: rest else (k, w) :: setAttr rest n v

def splitWsGo : List Char → List Char → List (List Char)
  | cur, [] => if cur == [] then [] else [cur.reverse]
  | cur, c :: rest =>
    if isPyWs c then
      if cur == [] then splitWsGo [] rest else cur.reverse :: splitWsGo [] rest
    else splitWsGo (c :: cur) rest

def splitWsL (l : List Char) : List (List Char) := splitWsGo [] l

/-- `\bpadding-top\s*:\s*0` searched case-insensitively. -/
def hasPadTopGo : Option Char → List Char → Bool
  | _, [] => false
  | prev, l@(c :: rest) =>
    let hit :=
      if (match prev with | none => true | some p => !isWordCh p) &&
          ciStartsWith "padding-top".data l then
        match (l.drop 11).dropWhile isPyWs with
        | ':' :: t2 => (t2.dropWhile isPyWs).head? == some '0'
        | _ => false
      else false
    hit || hasPadTopGo (some c) rest

def hasPadTop (l : List Char) : Bool := hasPadTopGo none l

/-- `\bpadding\s*:\s*0px?\b` searched case-insensitively (the `?` binds to
the `x` alone, so at least `0p` is required). -/
def hasPadZeroGo : Option Char → List Char → Bool
  | _, [] => false
  | prev, l@(c :: rest) =>
    let hit :=
      if (match prev with | none => true | some p => !isWordCh p) &&
          ciStartsWith "padding".data l then
        match (l.drop 7).dropWhile isPyWs with
        | ':' :: t2 =>
          match t2.dropWhile isPyWs with
          | '0' :: p :: tail =>
            if lowerCh p == 'p' then
              match tail with
              | [] => true
              | x :: tail2 =>
                if lowerCh x == 'x' then
                  match tail2 with
                  | [] => true
                  | y :: _ => !isWordCh y
                else !isWordCh x
            else false
          | _ => false
        | _ => false
      else false
    hit || hasPadZeroGo (some c) rest

def hasPadZero (l : List Char) : Bool := hasPadZeroGo none l

/-- Passes 1-3 and 9 on an element head (lines 1309-1341). -/
def fixElemHead (t : List Char) (a : List (List Char × List Char)) :
    List Char × List (List Char × List Char) :=
  if t = "strong".data ∨ t = "b".data then
    ("span".data, setAttr a "style".data
      ("font-weight:bold;".data ++ attrGet a "style".data []))
  else if t = "em".data ∨ t = "i".data then
    ("span".data, setAttr a "style".data
      ("font-style:italic;".data ++ attrGet a "style".data []))
  else if t = "u".data then
    ("span".data, setAttr a "style".data
      ("text-decoration:underline;".data ++ attrGet a "style".data []))
  else if t = "td".data then
    let classes := splitWsL (attrGet a "class".data [])
    if "table-box-mobile".data ∈ classes ∧ ¬ ("no-top-pad".data ∈ classes) then
      let style := attrGet a "style".data []
      if hasPadTop style || hasPadZero style then
        (t, setAttr a "class".data (joinSpace (classes ++ ["no-top-pad".data])))
      else (t, a)
    else (t, a)
  else (t, a)

/-- Passes 4-5 on `<img>` (lines 1322-1327). -/
def fixVelem (t : List Char) (a : List (List Char × List Char)) : Node :=
  if t = "img".data then
    let style := attrGet a "style".data []
    let a1 :=
      if containsSeq "display".data (pyLower style) then a
      else setAttr a "style".data ("display:block;margin:0 auto;".data ++ style)
    let a2 := if hasAttrB a1 "alt".data then a1 else a1 ++ [("alt".data, [])]
    Node.velem t a2
  else Node.velem t a

/-- All tree passes in one traversal; `script`/`iframe` decomposed (pass 6). -/
def fixNodesF : Nat → List Node → List Node
  | 0, _ => []
  | _+1, [] => []
  | fuel+1, n :: ns =>
    match n with
    | Node.text s => Node.text s :: fixNodesF fuel ns
    | Node.raw t a c =>
      if t == "script".data then fixNodesF fuel ns
      else Node.raw t a c :: fixNodesF fuel ns
    | Node.velem t a => fixVelem t a :: fixNodesF fuel ns
    | Node.elem t a cs =>
      if t == "script".data || t == "iframe".data then fixNodesF fuel ns
      else
        let h := fixElemHead t a
        Node.elem h.1 h.2 (fixNodesF fuel cs) :: fixNodesF fuel ns

/-- `str(BeautifulSoup(html, 'html.parser'))` after the tree passes. -/
def soupPhase (html : List Char) : List Char :=
  serGo (4 * html.length + 64)
    (List.map Sum.inl (fixNodesF (html.length + 1) (parseForest (html.length + 1) html)))

/-! ### `_apply_link_fixes` (lines 1357–1464), transcribed in full -/

/-- Search for word-boundary + `word` (given lowercase) + `\s*` + `sep`,
starting with `prev` as the character before the first position. -/
def hasKeySepGo (word : List Char) (sep : Char) : Option Char → List Char → Bool
  | _, [] => false
  | prev, l@(c :: rest) =>
    if (match prev with | none => true | some p => !isWordCh p) &&
        ciStartsWith word l then
      if ((l.drop word.length).dropWhile isPyWs).head? == some sep then true
      else hasKeySepGo word sep (some c) rest
    else hasKeySepGo word sep (some c) rest

def hasKeySep (word : List Char) (sep : Char) (l : List Char) : Bool :=
  hasKeySepGo word sep none l

/-- `re.search(word + r'\s*:\s*([^;]+)')`, with `needB` adding the leading
`\b` of the color variant; returns the raw (unstripped) capture. -/
def declValueGo (needB : Bool) (word : List Char) : Option Char → List Char →
    Option (List Char)
  | _, [] => none
  | prev, l@(c :: rest) =>
    if (!needB || (match prev with | none => true | some p => !isWordCh p)) &&
        ciStartsWith word l then
      match (l.drop word.length).dropWhile isPyWs with
      | ':' :: a2 =>
        let v := (a2.dropWhile isPyWs).takeWhile (fun ch => ch != ';')
        if v.isEmpty then declValueGo needB word (some c) rest else some v
      | _ => declValueGo needB word (some c) rest
    else declValueGo needB word (some c) rest

def declValue (needB : Bool) (word : List Char) (l : List Char) : Option (List Char) :=
  declValueGo needB word none l

/-- The tail `style\s*=\s*"([^"]*)"` tried at one position. -/
def tryStyleEqQuote (l : List Char) : Option (List Char) :=
  if ciStartsWith "style".data l then
    match (l.drop 5).dropWhile isPyWs with
    | '=' :: a2 =>
      match a2.dropWhile isPyWs with
      | '"' :: a3 =>
        match a3.dropWhile (fun ch => ch != '"') with
        | '"' :: _ => some (a3.takeWhile (fun ch => ch != '"'))
        | _ => none
      | _ => none
    | _ => none
  else none

/-- Leftmost `\bstyle\s*=\s*"([^"]*)"` in `attrs`: (before, value, after). -/
def findStyleAttrGo : Option Char → List Char → List Char →
    Option (List Char × List Char × List Char)
  | _, _, [] => none
  | prev, acc, l@(c :: rest) =>
    let here :=
      if (match prev with | none => true | some p => !isWordCh p) &&
          ciStartsWith "style".data l then
        match (l.drop 5).dropWhile isPyWs with
        | '=' :: a2 =>
          match a2.dropWhile isPyWs with
          | '"' :: a3 =>
            match a3.dropWhile (fun ch => ch != '"') with
            | '"' :: tail => some (acc.reverse, a3.takeWhile (fun ch => ch != '"'), tail)
            | _ => none
          | _ => none
        | _ => none
      else none
    match here with
    | some r => some r
    | none => findStyleAttrGo (some c) (c :: acc) rest

def findStyleAttr (attrs : List Char) : Option (List Char × List Char × List Char) :=
  findStyleAttrGo none [] attrs

/-- Greedy `[^>]*\bstyle\s*=\s*"([^"]*)"`: the rightmost candidate before the
first `>` wins, matching regex backtracking. -/
def lastStyleGo : Char → List Char → Option (List Char) → Option (List Char)
  | _, [], best => best
  | prev, l@(c :: rest), best =>
    if c = '>' then best
    else
      let here := if !isWordCh prev then tryStyleEqQuote l else none
      lastStyleGo c rest (match here with | some v => some v | none => best)

/-- `re.match(r'^\s*<span\b[^>]*\bstyle\s*=\s*"([^"]*)"', content, re.I)`. -/
def matchSpanStyle (content : List Char) : Option (List Char) :=
  let c1 := content.dropWhile isPyWs
  if ciStartsWith "<span".data c1 then
    match c1.drop 5 with
    | [] => none
    | c :: rest => if isWordCh c then none else lastStyleGo 'n' (c :: rest) none
  else none

/-- `re.findall(r'font-size\s*:\s*(\d+px)', preceding, re.I)[-1]`:
non-overlapping scan keeping the last capture. -/
def lastFzGo : Nat → List Char → Option (List Char) → Option (List Char)
  | 0, _, best => best
  | _+1, [], best => best
  | fuel+1, l@(c :: rest), best =>
    let tryHere :=
      if ciStartsWith "font-size".data l then
        match (l.drop 9).dropWhile isPyWs with
        | ':' :: t2 =>
          let t3 := t2.dropWhile isPyWs
          let ds := t3.takeWhile isDigitCh
          if ds.isEmpty then none
          else
            match t3.drop ds.length with
            | p :: x :: t5 =>
              if lowerCh p == 'p' && lowerCh x == 'x' then some (ds ++ [p, x], t5)
              else none
            | _ => none
        | _ => none
      else (none : Option (List Char × List Char))
    match tryHere with
    | some pr => lastFzGo fuel pr.2 (some pr.1)
    | none => lastFzGo fuel rest best

def lastFontSizePx (l : List Char) : Option (List Char) :=
  lastFzGo (l.length + 1) l none

def joinSemi : List (List Char) → List Char
  | [] => []
  | [x] => x
  | x :: rest => x ++ ";".data ++ joinSemi rest

def anchorCurStyle (attrs : List Char) : List Char :=
  match findStyleAttr attrs with
  | some t => t.2.1
  | none => []

def anchorSpanStyle (content : List Char) : List Char :=
  match matchSpanStyle content with
  | some v => v
  | none => []

/-- `already_fixed` (lines 1400-1404). -/
def anchorAlreadyFixed (content : List Char) : Bool :=
  let s := anchorSpanStyle content
  !s.isEmpty && hasKeySep "color".data ':' s && hasKeySep "font-size".data ':' s

/-- The guard of line 1407: anchor style already has color and
text-decoration, and the content span carries color and font-size. -/
def anchorSkip (attrs content : List Char) : Bool :=
  hasKeySep "color".data ':' (anchorCurStyle attrs) &&
  hasKeySep "text-decoration".data ':' (anchorCurStyle attrs) &&
  anchorAlreadyFixed content

/-- `fix_link` (lines 1379-1462); `whole` is `m.group(0)` and `preceding`
the original html before the match. -/
def fixLink (preceding whole attrs content : List Char) : List Char :=
  if hasKeySep "href".data '=' attrs = false then whole
  else if anchorSkip attrs content = true then whole
  else
    let curStyle := anchorCurStyle attrs
    let hasColor := hasKeySep "color".data ':' curStyle
    let hasTextDec := hasKeySep "text-decoration".data ':' curStyle
    let addParts := (if hasColor then [] else ["color:#000000".data]) ++
      (if hasTextDec then [] else ["text-decoration:underline".data])
    let addStr := if addParts.isEmpty then [] else joinSemi addParts ++ ";".data
    let newAttrs :=
      if addStr.isEmpty then attrs
      else
        match findStyleAttr attrs with
        | some t => t.1 ++ "style=\"".data ++ addStr ++ t.2.1 ++ "\"".data ++ t.2.2
        | none => " style=\"".data ++ addStr ++ "\"".data ++ attrs
    let merged := addStr ++ curStyle
    let spanFz :=
      match declValue false "font-size".data merged with
      | some v => pyStrip v
      | none =>
        match lastFontSizePx preceding with
        | some v => v
        | none => "16px".data
    let cVal :=
      match declValue true "color".data merged with
      | some v => pyStrip v
      | none => "#000000".data
    let tdVal :=
      match declValue false "text-decoration".data merged with
      | some v => pyStrip v
      | none => "underline".data
    let spanStyle := "font-size:".data ++ spanFz ++ ";color:".data ++ cVal ++
      ";text-decoration:".data ++ tdVal ++ ";".data
    let newContent :=
      if anchorAlreadyFixed content then content
      else "<span style=\"".data ++ spanStyle ++ "\">".data ++ content ++ "</span>".data
    "<a".data ++ newAttrs ++ ">".data ++ newContent ++ "</a>".data

/-- One attempt of `<a\b([^>]*)>([\s\S]*?)</a>` at the head:
(original open `<a`, attrs, content, original close segment, rest). -/
def matchAnchor (l : List Char) :
    Option (List Char × List Char × List Char × List Char × List Char) :=
  match l with
  | c0 :: c1 :: t =>
    if c0 = '<' && lowerCh c1 == 'a' then
      match t with
      | [] => none
      | c2 :: _ =>
        if isWordCh c2 then none
        else
          let attrs := t.takeWhile (fun ch => ch != '>')
          match t.dropWhile (fun ch => ch != '>') with
          | '>' :: t2 =>
            match splitAtSeqCi "</a>".data t2 with
            | some r => some ([c0, c1], attrs, r.1, r.2.1, r.2.2)
            | none => none
          | _ => none
    else none
  | _ => none

def subLinksGo : Nat → List Char → List Char → List Char
  | 0, _, rest => rest
  | _+1, _, [] => []
  | fuel+1, pre, l@(c :: cs) =>
    match matchAnchor l with
    | some m =>
      let whole := m.1 ++ m.2.1 ++ '>' :: (m.2.2.1 ++ m.2.2.2.1)
      fixLink pre whole m.2.1 m.2.2.1 ++ subLinksGo fuel (pre ++ whole) m.2.2.2.2
    | none => c :: subLinksGo fuel (pre ++ [c]) cs

/-- `_apply_link_fixes`: `re.sub` over the whole document, `preceding`
always taken from the original input. -/
def applyLinkFixes (html : List Char) : List Char :=
  subLinksGo (html.length + 1) [] html

/-! ### `_inject_gmail_ios_css` (lines 1467–1510) -/

def gmailCss : List Char :=
  "\n/* Gmail iOS: fix font-size/family on all .tablebox / .table-box spans */\nu + #body .tablebox a,u + #body .table-box a\x7bfont-size:16px!important\x7d\nu + #body .tablebox li,u + #body .table-box li\x7bfont-size:16px!important\x7d\nu + #body .tablebox p span,u + #body .tablebox li span,u + #body .table-box p span,u + #body .table-box li span\x7bfont-size:16px!important;font-family:".data ++
  Char.ofNat 39 :: "DM Sans".data ++
  Char.ofNat 39 :: ",Arial,Helvetica,sans-serif!important\x7d\n".data

/-- `re.sub(r'<body\b(?![^>]*\bid\s*=)([^>]*)>', r'<body id="body"\1>',
html, count=1, flags=re.IGNORECASE)`. -/
def bodyIdGo : Nat → List Char → List Char
  | 0, rest => rest
  | _+1, [] => []
  | fuel+1, l@(c :: cs) =>
    if ciStartsWith "<body".data l then
      let t := l.drop 5
      let ok := match t.head? with | none => false | some ch => !isWordCh ch
      let region := t.takeWhile (fun ch => ch != '>')
      match t.dropWhile (fun ch => ch != '>') with
      | '>' :: t2 =>
        if ok && !hasKeySepGo "id".data '=' (some 'y') region then
          "<body id=\"body\"".data ++ region ++ '>' :: t2
        else c :: bodyIdGo fuel cs
      | _ => c :: bodyIdGo fuel cs
    else c :: bodyIdGo fuel cs

/-- `html.replace(old, new, 1)` (case-sensitive). -/
def replaceFirstSeq (pat repl : List Char) : List Char → List Char
  | [] => []
  | c :: rest =>
    if startsWithSeq pat (c :: rest) then repl ++ (c :: rest).drop pat.length
    else c :: replaceFirstSeq pat repl rest

def injectGmailIosCss (html : List Char) : List Char :=
  replaceFirstSeq "</style>".data (gmailCss ++ "</style>".data)
    (bodyIdGo (html.length + 1) html)

/-- `apply_email_fixes` (lines 1291-1354): soup phase, link fixes, Gmail
iOS CSS injection, Iterable height fix, in that order. -/
def applyEmailFixes (html : List Char) : List Char :=
  fixIterableHeights (injectGmailIosCss (applyLinkFixes (soupPhase html)))

/-- **C1.** The pipeline is not idempotent: `_inject_gmail_ios_css` appends
its CSS before the first `</style>` unconditionally (line 1509 has no
guard), so on a document with a style block the second run inserts a second
copy of the Gmail CSS and the output differs. -/
theorem claim_C1_not_idempotent :
    applyEmailFixes "<style></style>".data =
      "<style>".data ++ (gmailCss ++ "</style>".data) ∧
    applyEmailFixes ("<style>".data ++ (gmailCss ++ "</style>".data)) =
      "<style>".data ++ (gmailCss ++ (gmailCss ++ "</style>".data)) ∧
    applyEmailFixes (applyEmailFixes "<style></style>".data) ≠
      applyEmailFixes "<style></style>".data := by
  have h1 : applyEmailFixes "<style></style>".data =
      "<style>".data ++ (gmailCss ++ "</style>".data) := by decide
  have h2 : applyEmailFixes ("<style>".data ++ (gmailCss ++ "</style>".data)) =
      "<style>".data ++ (gmailCss ++ (gmailCss ++ "</style>".data)) := by decide
  refine ⟨h1, h2, ?_⟩
  rw [h1, h2]
  decide

/-- **C5 counterexample.** An anchor whose content is already wrapped in a
span carrying explicit color and font-size, but whose own style lacks
color/text-decoration, is NOT left byte-unchanged: the pass rewrites its
attributes (the guard of line 1407 also requires the anchor styles). -/
theorem claim_C5_link_fixes_counterexample :
    anchorAlreadyFixed "<span style=\"color:#000000;font-size:14px;\">t</span>".data = true ∧
    applyLinkFixes
        "<a href=\"x\"><span style=\"color:#000000;font-size:14px;\">t</span></a>".data =
      "<a style=\"color:#000000;text-decoration:underline;\" href=\"x\"><span style=\"color:#000000;font-size:14px;\">t</span></a>".data ∧
    applyLinkFixes
        "<a href=\"x\"><span style=\"color:#000000;font-size:14px;\">t</span></a>".data ≠
      "<a href=\"x\"><span style=\"color:#000000;font-size:14px;\">t</span></a>".data := by
  refine ⟨by decide, by decide, by decide⟩

/-- **C5.** Amended: an anchor is left byte-unchanged exactly under the
full guard — its own style already has color and text-decoration AND its
content span carries explicit color and font-size; with that, Scenario C
holds through the whole pipeline: the bare anchor gains the inline anchor
styles and the span wrapper with explicit font-size/color/text-decoration,
and a second pipeline run is byte-identical. -/
theorem claim_C5_link_fixes :
    (∀ preceding whole attrs content : List Char,
      hasKeySep "href".data '=' attrs = true →
      anchorSkip attrs content = true →
      fixLink preceding whole attrs content = whole) ∧
    applyEmailFixes "<a href=\"x\">text</a>".data =
      "<a style=\"color:#000000;text-decoration:underline;\" href=\"x\"><span style=\"font-size:16px;color:#000000;text-decoration:underline;\">text</span></a>".data ∧
    applyEmailFixes
        "<a style=\"color:#000000;text-decoration:underline;\" href=\"x\"><span style=\"font-size:16px;color:#000000;text-decoration:underline;\">text</span></a>".data =
      "<a style=\"color:#000000;text-decoration:underline;\" href=\"x\"><span style=\"font-size:16px;color:#000000;text-decoration:underline;\">text</span></a>".data := by
  refine ⟨?_, by decide, by decide⟩
  intro preceding whole attrs content h1 h2
  simp [fixLink, h1, h2]

/-- Witness for C5: the fully fixed Scenario C anchor satisfies the guard
and is returned verbatim by `fix_link`. -/
theorem claim_C5_link_fixes_witness :
    hasKeySep "href".data '='
        " style=\"color:#000000;text-decoration:underline;\" href=\"x\"".data = true ∧
    anchorSkip " style=\"color:#000000;text-decoration:underline;\" href=\"x\"".data
        "<span style=\"font-size:16px;color:#000000;text-decoration:underline;\">text</span>".data = true ∧
    fixLink [] "W".data
        " style=\"color:#000000;text-decoration:underline;\" href=\"x\"".data
        "<span style=\"font-size:16px;color:#000000;text-decoration:underline;\">text</span>".data =
      "W".data :=
  ⟨by decide, by decide,
   claim_C5_link_fixes.1 [] "W".data
     " style=\"color:#000000;text-decoration:underline;\" href=\"x\"".data
     "<span style=\"font-size:16px;color:#000000;text-decoration:underline;\">text</span>".data
     (by decide) (by decide)⟩

end StagingTools
